import Mathlib

/-!
# kubelize/subst: layered substitution context

A shallow embedding of the discovery-and-merge core of `subst`:

* `internal/utils/conversion.go`   : `DeepMerge`
* `internal/kustomize/kustomize.go`: `parseKustomizationResources`
* `pkg/subst/build.go`             : `loadSubstFiles`, `loadSubstFromPath`,
  `loadEjsonFiles`

Go's `map[string]interface{}` is embedded as an association list
(`GoMap`).  A Go map holds every key at most once; the predicate
`NodupKeys` states this for one mapping and `GoMap.WF` for a whole tree.
Reading `m[k]` is `mapGet`, the assignment `m[k] = v` is `mapSet` (replace in
place, or append when the key is new).  `for k, v := range m` visits the
entries in list order; Go leaves that order unspecified, and for a mapping with
unique keys the merge result read through `mapGet` is the same for every order.

Go maps are references.  The embedding uses values: the loaders never read a
source document again after merging it, and `yaml.v3` / `encoding/json`
produce trees without sharing, so no alias of a merged mapping is observable.
-/

namespace SubstSpec

/-! ## Dynamically typed values -/

/-- Scalars a decoded YAML/JSON document can hold. -/
inductive Scalar where
  | null : Scalar
  | bool (b : Bool) : Scalar
  | int (i : Int) : Scalar
  | float (text : String) : Scalar
  | str (s : String) : Scalar
  deriving DecidableEq, Repr

/-- The dynamic type `interface{}` as populated by the decoders: a scalar, a
sequence `[]interface{}`, or a mapping `map[string]interface{}`. -/
inductive Value where
  | scalar (s : Scalar) : Value
  | seq (items : List Value) : Value
  | map (entries : List (String × Value)) : Value

/-- The Go type `map[string]interface{}`. -/
abbrev GoMap := List (String × Value)

mutual
/-- Decidable equality on values. -/
def Value.decEq : (a b : Value) → Decidable (a = b)
  | .scalar x, .scalar y =>
    decidable_of_iff (x = y) ⟨fun h => by rw [h], fun h => by injection h⟩
  | .seq x, .seq y =>
    match Value.decEqList x y with
    | isTrue h => isTrue (by rw [h])
    | isFalse h => isFalse (fun hc => by injection hc with hi; exact h hi)
  | .map x, .map y =>
    match Value.decEqEntries x y with
    | isTrue h => isTrue (by rw [h])
    | isFalse h => isFalse (fun hc => by injection hc with hi; exact h hi)
  | .scalar _, .seq _ | .scalar _, .map _ | .seq _, .scalar _
  | .seq _, .map _ | .map _, .scalar _ | .map _, .seq _ =>
    isFalse (fun h => by cases h)
/-- Decidable equality on sequences of values. -/
def Value.decEqList : (a b : List Value) → Decidable (a = b)
  | [], [] => isTrue rfl
  | [], _ :: _ | _ :: _, [] => isFalse (fun h => by cases h)
  | x :: xs, y :: ys =>
    match Value.decEq x y, Value.decEqList xs ys with
    | isTrue h₁, isTrue h₂ => isTrue (by rw [h₁, h₂])
    | isFalse h, _ => isFalse (fun hc => by injection hc with h₁ h₂; exact h h₁)
    | _, isFalse h => isFalse (fun hc => by injection hc with h₁ h₂; exact h h₂)
/-- Decidable equality on mapping entries. -/
def Value.decEqEntries : (a b : List (String × Value)) → Decidable (a = b)
  | [], [] => isTrue rfl
  | [], _ :: _ | _ :: _, [] => isFalse (fun h => by cases h)
  | (k, x) :: xs, (k', y) :: ys =>
    if hk : k = k' then
      match Value.decEq x y, Value.decEqEntries xs ys with
      | isTrue h₁, isTrue h₂ => isTrue (by rw [hk, h₁, h₂])
      | isFalse h, _ =>
        isFalse (fun hc => by injection hc with h₁ h₂; injection h₁ with h₃ h₄; exact h h₄)
      | _, isFalse h => isFalse (fun hc => by injection hc with h₁ h₂; exact h h₂)
    else isFalse (fun hc => by injection hc with h₁ h₂; injection h₁ with h₃ h₄; exact hk h₃)
end

instance : DecidableEq Value := Value.decEq

/-- The type assertion `v.(map[string]interface{})` succeeds. -/
def Value.isMap : Value → Bool
  | .map _ => true
  | _ => false

/-- Integer scalar, for writing documents down. -/
def Value.ofInt (i : Int) : Value := .scalar (.int i)

/-- String scalar, for writing documents down. -/
def Value.ofStr (s : String) : Value := .scalar (.str s)

/-- The read `m[k]` with its presence flag: `v, exists := m[k]`. -/
def mapGet (k : String) : GoMap → Option Value
  | [] => none
  | (k', v) :: rest => if k' = k then some v else mapGet k rest

/-- The assignment `m[k] = v`: overwrite the entry of `k`, or add one. -/
def mapSet (k : String) (v : Value) : GoMap → GoMap
  | [] => [(k, v)]
  | (k', v') :: rest => if k' = k then (k, v) :: rest else (k', v') :: mapSet k v rest

/-- The keys of a mapping, in entry order. -/
def mapKeys (m : GoMap) : List String := m.map Prod.fst

/-- A Go map holds each key once. -/
def NodupKeys (m : GoMap) : Prop := (mapKeys m).Nodup

instance (m : GoMap) : Decidable (NodupKeys m) := by
  unfold NodupKeys; infer_instance

mutual
/-- Every mapping inside the value holds each key once. -/
def Value.wf : Value → Bool
  | .scalar _ => true
  | .seq items => Value.wfList items
  | .map entries => decide (NodupKeys entries) && Value.wfEntries entries
/-- Every value of the sequence is well formed. -/
def Value.wfList : List Value → Bool
  | [] => true
  | v :: rest => Value.wf v && Value.wfList rest
/-- Every value stored in the entries is well formed. -/
def Value.wfEntries : List (String × Value) → Bool
  | [] => true
  | (_, v) :: rest => Value.wf v && Value.wfEntries rest
end

/-- A decoded document: a mapping whose keys are unique at every level. -/
def GoMap.WF (m : GoMap) : Prop := Value.wf (.map m) = true

instance (m : GoMap) : Decidable (GoMap.WF m) := by
  unfold GoMap.WF; infer_instance

/-! ## `internal/utils/conversion.go` -/

mutual
/-- The function `DeepMerge(dst, src)`: the loop `for key, srcVal := range src`,
returning the updated `dst`. -/
def DeepMerge (dst : GoMap) : GoMap → GoMap
  | [] => dst
  | entry :: rest => DeepMerge (DeepMerge.step dst entry) rest
/-- One iteration of the loop of `DeepMerge`, for the entry `key, srcVal`:
`if dstVal, exists := dst[key]; exists { ... } else { dst[key] = srcVal }`. -/
def DeepMerge.step (dst : GoMap) : String × Value → GoMap
  | (key, srcVal) =>
    match mapGet key dst with
    | some dstVal => mapSet key (DeepMerge.both dstVal srcVal) dst
    | none => mapSet key srcVal dst
/-- The value stored when the key is in both maps: `DeepMerge(dstMap, srcMap)`
if `srcIsMap && dstIsMap`, else `srcVal`. -/
def DeepMerge.both (dstVal : Value) : Value → Value
  | .map srcMap =>
    match dstVal with
    | .map dstMap => .map (DeepMerge dstMap srcMap)
    | _ => .map srcMap
  | srcVal => srcVal
end

/-- The value found by following a path of keys through nested mappings. -/
def getPath : GoMap → List String → Option Value
  | _, [] => none
  | m, [k] => mapGet k m
  | m, k :: k2 :: rest =>
    match mapGet k m with
    | some (.map inner) => getPath inner (k2 :: rest)
    | _ => none

/-! ## Library functions used by the loaders (`path/filepath`, `strings`, `sort`)

Unix path rules: the separator is `/` and there are no volume names. -/

/-- The output buffer of `filepath.Clean` after a `..` element backtracks: the
buffer is held last byte first, `dotdot` is the index where `..` must stop. -/
def Clean.backtrack (dotdot : Nat) : List Char → List Char
  | [] => []
  | c :: out => if dotdot < out.length ∧ c ≠ '/' then Clean.backtrack dotdot out else out

/-- The read position of `Clean` is at the end of the path or at a separator. -/
def Clean.atElemEnd : List Char → Bool
  | [] => true
  | c :: _ => c = '/'

/-- The bytes after a `.` are a second `.` followed by the end of the element. -/
def Clean.atDotDot : List Char → Bool
  | [] => false
  | d :: rest => d = '.' && Clean.atElemEnd rest

/-- The step of `Clean` before copying a real path element: add a slash if needed. -/
def Clean.addSep (rooted : Bool) (out : List Char) : List Char :=
  if (rooted && out.length != 1) || (!rooted && out.length != 0) then '/' :: out else out

/-- Where the read position of `Clean` stands: at the start of an element,
inside a real element being copied, or on the second byte of a `..` element. -/
inductive Clean.Mode where
  | elemStart | inElem | secondDot
  deriving DecidableEq, Repr

/-- The main loop `for r < n` of `filepath.Clean`, one byte per step; `out` is
the output buffer, last byte first. -/
def Clean.loop (rooted : Bool) : List Char → Clean.Mode → List Char → Nat → List Char
  | [], _, out, _ => out
  | _ :: rest, .secondDot, out, dotdot =>
    if dotdot < out.length then
      Clean.loop rooted rest .elemStart (Clean.backtrack dotdot out) dotdot
    else if rooted then Clean.loop rooted rest .elemStart out dotdot
    else
      let out2 := '.' :: '.' :: (if 0 < out.length then '/' :: out else out)
      Clean.loop rooted rest .elemStart out2 out2.length
  | c :: rest, .inElem, out, dotdot =>
    if c = '/' then Clean.loop rooted rest .elemStart out dotdot
    else Clean.loop rooted rest .inElem (c :: out) dotdot
  | c :: rest, .elemStart, out, dotdot =>
    if c = '/' then Clean.loop rooted rest .elemStart out dotdot
    else if c = '.' ∧ Clean.atElemEnd rest then Clean.loop rooted rest .elemStart out dotdot
    else if c = '.' ∧ Clean.atDotDot rest then Clean.loop rooted rest .secondDot out dotdot
    else Clean.loop rooted rest .inElem (c :: Clean.addSep rooted out) dotdot

/-- The output buffer of `filepath.Clean` for a non-empty path, last byte first,
before an empty result is turned into `.`. -/
def Clean.buffer : List Char → List Char
  | [] => []
  | c :: rest =>
    if c = '/' then Clean.loop true rest .elemStart ['/'] 1
    else Clean.loop false (c :: rest) .elemStart [] 0

/-- The function `filepath.Clean` on a list of bytes. -/
def Clean.chars (path : List Char) : List Char :=
  if path = [] then ['.']
  else if Clean.buffer path = [] then ['.'] else (Clean.buffer path).reverse

/-- The function `filepath.Clean`. -/
def Clean (path : String) : String := String.mk (Clean.chars path.data)

/-- The slice `path[:i+1]` of `filepath.Dir`, where `i` is the index of the
last separator: everything up to and including it. -/
def Dir.upToLastSep (path : List Char) : List Char :=
  (path.reverse.dropWhile (fun c => c ≠ '/')).reverse

/-- The function `filepath.Dir`. -/
def Dir (path : String) : String := String.mk (Clean.chars (Dir.upToLastSep path.data))

/-- The function `filepath.Join`: the elements from the first non-empty one
on, joined by the separator and cleaned; the empty string if all are empty. -/
def Join (elem : List String) : String :=
  match elem.dropWhile (fun e => e = "") with
  | [] => ""
  | es => Clean (String.intercalate "/" es)

/-- The function `filepath.IsAbs`. -/
def IsAbs (path : String) : Bool := path.data.head? = some '/'

/-- The function `filepath.Abs`; `getwd` is the result of `os.Getwd`, `none`
when it fails. -/
def Abs (getwd : Option String) (path : String) : Option String :=
  if IsAbs path then some (Clean path)
  else
    match getwd with
    | none => none
    | some wd => some (Join [wd, path])

/-- The count `strings.Count(path, string(filepath.Separator))`. -/
def countSeparators (path : String) : Nat := path.data.count '/'

/-- The test `strings.HasSuffix(path, suffix)`. -/
def HasSuffix (path suffix : String) : Bool := suffix.data.isSuffixOf path.data

/-- The call `sort.Slice(paths, less)`.  The library promises a permutation
ordered by `less` and no stability; this is the insertion sort it runs on
slices of at most twelve elements.  On longer slices the library may leave
elements that compare equal in another order, so statements about the order of
loading use of this function only that its result is a permutation ordered by
`less`, and where ties matter they range over every such permutation. -/
def sortSlice (less : String → String → Bool) (paths : List String) : List String :=
  paths.insertionSort (fun a b => less b a = false)

/-! ## The world outside the program -/

/-- The Go type `error`. -/
abbrev Error := String

/-- An entry returned by `os.ReadDir`. -/
structure DirEntry where
  name : String
  isDir : Bool
  deriving DecidableEq, Repr

/-- The interface `decryptors.Decryptor` as implemented by the ejson decryptor. -/
structure Decryptor where
  IsEncrypted : String → Except Error Bool
  Decrypt : String → Except Error GoMap

/-- The filesystem, the decoders and the unspecified choices of the runtime. -/
structure World where
  /-- The call `os.Getwd()`; `none` is an error. -/
  getwd : Option String
  /-- The call `os.Stat(path)`: `none` is an error, `some d` has `IsDir() = d`. -/
  stat : String → Option Bool
  /-- The call `os.ReadDir(path)`; `none` is an error. -/
  readDir : String → Option (List DirEntry)
  /-- The call `os.ReadFile(path)`; `none` is an error. -/
  readFile : String → Option String
  /-- The call `yaml.Unmarshal(content, &substFile)` into a
  `map[string]interface{}`; `none` is an error. -/
  yamlUnmarshalMap : String → Option GoMap
  /-- The call `yaml.Unmarshal(content, &kustFile)`: the `resources` field of
  the decoded `KustomizationFile`; `none` is an error. -/
  yamlUnmarshalResources : String → Option (List String)
  /-- The order in which `for path := range pathsToLoad` yields the keys of the
  map; the argument lists the keys in the order they were inserted. -/
  rangeKeys : List String → List String
  /-- The files and directories `filepath.Walk(root, fn)` visits, with the
  `IsDir()` flag of each, and the error it stops on, if any. -/
  walk : String → List (String × Bool) × Option Error

/-! ## `internal/kustomize/kustomize.go` -/

/-- The fields of `Kustomize` the resource resolution uses. -/
structure Kustomize where
  Root : String
  ResourcePaths : List String
  deriving DecidableEq, Repr

/-- The method `GetResourcePaths`. -/
def Kustomize.GetResourcePaths (k : Kustomize) : List String := k.ResourcePaths

/-- The first loop of `parseKustomizationResources`: the path of the first of
the candidate names that can be stat-ed, or the empty string. -/
def findKustomizationPath (w : World) (root : String) : List String → String
  | [] => ""
  | name :: rest =>
    let path := Join [root, name]
    match w.stat path with
    | some _ => path
    | none => findKustomizationPath w root rest

/-- The last loop of `parseKustomizationResources` over `kustFile.Resources`. -/
def resolveResources (w : World) (root : String) : List String → List String → List String
  | [], acc => acc
  | resource :: rest, acc =>
    let resourcePath := Clean (Join [root, resource])
    match w.stat resourcePath with
    | some true => resolveResources w root rest (acc ++ [resourcePath])
    | _ => resolveResources w root rest acc

/-- The method `parseKustomizationResources`: the updated receiver and the
returned error. -/
def parseKustomizationResources (w : World) (k : Kustomize) : Kustomize × Option Error :=
  let kustomizationPath :=
    findKustomizationPath w k.Root ["kustomization.yaml", "kustomization.yml", "Kustomization"]
  if kustomizationPath = "" then (k, none)
  else
    match w.readFile kustomizationPath with
    | none => (k, some "read error")
    | some content =>
      match w.yamlUnmarshalResources content with
      | none => (k, some "failed to parse kustomization file")
      | some resources =>
        ({ k with ResourcePaths := resolveResources w k.Root resources k.ResourcePaths }, none)

/-! ## `pkg/subst/build.go` -/

/-- The field of `config.Configuration` the loaders use. -/
structure Configuration where
  RootDirectory : String

/-- The fields of `Subst` the loaders use. -/
structure Subst where
  Kustomization : Kustomize
  Substitutions : GoMap
  EjsonDecryptor : Option Decryptor
  Config : Configuration

/-- The assignment `pathsToLoad[path] = true` on the set of collected paths. -/
def setAdd (pathsToLoad : List String) (path : String) : List String :=
  if path ∈ pathsToLoad then pathsToLoad else pathsToLoad ++ [path]

/-- The first loop of `loadSubstFiles`: the values `currentPath` takes, in
order.  The Go loop has no bound; `none` means it is still running after
`fuel` iterations. -/
def ancestorChain : Nat → String → Option (List String)
  | 0, _ => none
  | fuel + 1, currentPath =>
    let parentPath := Dir currentPath
    if parentPath = currentPath ∨ parentPath = "/" ∨ parentPath = "." then some [currentPath]
    else (ancestorChain fuel parentPath).map (fun chain => currentPath :: chain)

/-- The second loop of `loadSubstFiles`: add the absolute form of every
resource path for which `filepath.Abs` succeeds. -/
def addResourcePaths (w : World) (pathsToLoad : List String) (resourcePaths : List String) :
    List String :=
  resourcePaths.foldl
    (fun acc resourcePath =>
      match Abs w.getwd resourcePath with
      | some absPath => setAdd acc absPath
      | none => acc)
    pathsToLoad

/-- The comparison passed to `sort.Slice` in `loadSubstFiles`. -/
def depthLess (a b : String) : Bool := countSeparators a < countSeparators b

/-- The slice `paths` of `loadSubstFiles` after `sort.Slice`: the directories
in the order they are loaded.  `none` means the ancestor loop did not finish
within `len(root) + 1` iterations. -/
def loadOrder (w : World) (root : String) (resourcePaths : List String) : Option (List String) :=
  match ancestorChain (root.length + 1) root with
  | none => none
  | some chain =>
    let pathsToLoad := addResourcePaths w (chain.foldl setAdd []) resourcePaths
    some (sortSlice depthLess (w.rangeKeys pathsToLoad))

/-- The method `loadSubstFile`: read the file and decode it as a mapping. -/
def loadSubstFile (w : World) (filePath : String) : Except Error GoMap :=
  match w.readFile filePath with
  | none => .error "read error"
  | some content =>
    match w.yamlUnmarshalMap content with
    | none => .error ("failed to parse YAML in " ++ filePath)
    | some substFile => .ok substFile

/-- The body of the loop over `entries` in `loadSubstFromPath`. -/
def loadSubstEntry (w : World) (basePath : String) (s : Subst) (entry : DirEntry) : Subst :=
  if entry.isDir then s
  else if entry.name = "subst.yaml" then
    match loadSubstFile w (Join [basePath, entry.name]) with
    | .error _ => s
    | .ok substData => { s with Substitutions := DeepMerge s.Substitutions substData }
  else s

/-- The method `loadSubstFromPath`: the updated receiver and the returned error. -/
def loadSubstFromPath (w : World) (s : Subst) (basePath : String) : Subst × Option Error :=
  match w.readDir basePath with
  | none => (s, some "readdir error")
  | some entries => (entries.foldl (loadSubstEntry w basePath) s, none)

/-- The last loop of `loadSubstFiles`: load every path in order; the error of
`loadSubstFromPath` is logged and dropped. -/
def loadSubstPaths (w : World) (s : Subst) (paths : List String) : Subst :=
  paths.foldl (fun acc path => (loadSubstFromPath w acc path).1) s

/-- The method `loadSubstFiles`: the updated receiver and the returned error;
`none` means the ancestor loop did not finish. -/
def loadSubstFiles (w : World) (s : Subst) : Option (Subst × Option Error) :=
  match loadOrder w s.Kustomization.Root s.Kustomization.GetResourcePaths with
  | none => none
  | some paths => some (loadSubstPaths w s paths, none)

/-- The method `findEjsonFiles`: the visited regular files whose path ends
in `.ejson`, and the error of the walk. -/
def findEjsonFiles (w : World) (s : Subst) : List String × Option Error :=
  let visited := w.walk s.Config.RootDirectory
  (visited.1.filterMap
      (fun entry => if !entry.2 && HasSuffix entry.1 ".ejson" then some entry.1 else none),
    visited.2)

/-- The loop `for key, value := range decryptedData` of `loadEjsonFiles`, which
copies every key but `_public_key` into `target`. -/
def copySecretKeys (decryptedData : GoMap) (target : GoMap) : GoMap :=
  decryptedData.foldl
    (fun acc entry => if entry.1 ≠ "_public_key" then mapSet entry.1 entry.2 acc else acc)
    target

/-- Lines 223 to 244 of `build.go`: add the decrypted data to the substitutions
under the `ejson` key, the secret namespace. -/
def addToEjsonNamespace (substitutions : GoMap) (decryptedData : GoMap) : GoMap :=
  match mapGet "ejson" substitutions with
  | some ejsonData =>
    match ejsonData with
    | .map ejsonMap => mapSet "ejson" (.map (copySecretKeys decryptedData ejsonMap)) substitutions
    | _ => substitutions
  | none => mapSet "ejson" (.map (copySecretKeys decryptedData [])) substitutions

/-- The body of the loop over `ejsonFiles` in `loadEjsonFiles`. -/
def loadEjsonFile (w : World) (d : Decryptor) (s : Subst) (ejsonFile : String) : Subst :=
  match w.readFile ejsonFile with
  | none => s
  | some content =>
    match d.IsEncrypted content with
    | .ok true =>
      match d.Decrypt content with
      | .error _ => s
      | .ok decryptedData =>
        { s with Substitutions := addToEjsonNamespace s.Substitutions decryptedData }
    | _ => s

/-- The method `loadEjsonFiles`: the updated receiver and the returned error. -/
def loadEjsonFiles (w : World) (s : Subst) : Subst × Option Error :=
  match s.EjsonDecryptor with
  | none => (s, none)
  | some d =>
    match findEjsonFiles w s with
    | (_, some err) => (s, some ("failed to find ejson files: " ++ err))
    | (ejsonFiles, none) => (ejsonFiles.foldl (loadEjsonFile w d) s, none)

/-! ## Auxiliary definitions for the statements -/

/-- The value one loop iteration stores under its key. -/
def DeepMerge.stored (dst : GoMap) (key : String) (srcVal : Value) : Value :=
  match mapGet key dst with
  | some dstVal => DeepMerge.both dstVal srcVal
  | none => srcVal

/-- The entry of key `k` after merging `src`, computed from the entry `cur` of
`k` in `dst` alone. -/
def mergeAt (k : String) (cur : Option Value) (src : GoMap) : Option Value :=
  src.foldl
    (fun acc entry =>
      if entry.1 = k then
        match acc with
        | some dstVal => some (DeepMerge.both dstVal entry.2)
        | none => some entry.2
      else acc)
    cur

/-- The documents `loadSubstFromPath` merges for a directory, in order: one
for each entry that is a regular file named `subst.yaml` and that
`loadSubstFile` reads and decodes. -/
def overrideDocs (w : World) (basePath : String) : List GoMap :=
  match w.readDir basePath with
  | none => []
  | some entries =>
    entries.filterMap
      (fun entry =>
        if entry.isDir then none
        else if entry.name = "subst.yaml" then
          match loadSubstFile w (Join [basePath, entry.name]) with
          | .error _ => none
          | .ok substData => some substData
        else none)

/-- The top-level keys set by the override documents of a directory. -/
def overrideKeys (w : World) (basePath : String) : List String :=
  (overrideDocs w basePath).flatMap mapKeys

/-- The substitutions after merging the override documents of a directory. -/
def mergeOverrides (w : World) (substitutions : GoMap) (basePath : String) : GoMap :=
  (overrideDocs w basePath).foldl DeepMerge substitutions

/-- Two mappings hold the same keys with the same values; this is equality
of Go maps, which have no entry order. -/
def SameEntries (a b : GoMap) : Prop := ∀ k, mapGet k a = mapGet k b

/-! ## An example tree

```
/env/subst.yaml                  env: base
/env/shared/
/env/prod/kustomization.yaml     resources: [app, db, ../shared, missing]
/env/prod/subst.yaml             env: prod, replicas: 3
/env/prod/secrets.ejson          _public_key: k, token: t   (encrypted)
/env/prod/app/subst.yaml         owner: app
/env/prod/db/subst.yaml          owner: db
/env/prod/web/subst.yaml         config: (port: 80)
/env/prod/api/subst.yaml         config: (host: api)
/srv/subst.yaml                  a: (x: 1)
/srv/app/subst.yaml              a: 5
/srv/bad/subst.yaml              a sequence, not a mapping
/srv/locked/subst.yaml           listed, and not readable
```
-/

/-- The directories of the example tree. -/
def exampleDirs : List String :=
  ["/env", "/env/shared", "/env/prod", "/env/prod/app", "/env/prod/db", "/srv", "/srv/app",
    "/srv/bad", "/srv/locked", "/env/prod/web", "/env/prod/api"]

/-- The regular files of the example tree and their contents. -/
def exampleFiles : List (String × String) :=
  [("/env/subst.yaml", "env: base"),
   ("/env/prod/kustomization.yaml", "resources: [app, db, ../shared, missing]"),
   ("/env/prod/subst.yaml", "env: prod\nreplicas: 3"),
   ("/env/prod/secrets.ejson", "EJ[_public_key: k, token: t]"),
   ("/env/prod/app/subst.yaml", "owner: app"),
   ("/env/prod/db/subst.yaml", "owner: db"),
   ("/srv/subst.yaml", "a:\n  x: 1"),
   ("/srv/app/subst.yaml", "a: 5"),
   ("/srv/bad/subst.yaml", "- not a mapping"),
   ("/env/prod/web/subst.yaml", "config:\n  port: 80"),
   ("/env/prod/api/subst.yaml", "config:\n  host: api")]

/-- The decoder of the example tree on the override files it holds. -/
def exampleYaml : String → Option GoMap
  | "env: base" => some [("env", .ofStr "base")]
  | "env: prod\nreplicas: 3" => some [("env", .ofStr "prod"), ("replicas", .ofInt 3)]
  | "owner: app" => some [("owner", .ofStr "app")]
  | "owner: db" => some [("owner", .ofStr "db")]
  | "a:\n  x: 1" => some [("a", .map [("x", .ofInt 1)])]
  | "a: 5" => some [("a", .ofInt 5)]
  | "config:\n  port: 80" => some [("config", .map [("port", .ofInt 80)])]
  | "config:\n  host: api" => some [("config", .map [("host", .ofStr "api")])]
  | _ => none

/-- The entries of the directories of the example tree. -/
def exampleReadDir : String → Option (List DirEntry)
  | "/env" => some [⟨"prod", true⟩, ⟨"shared", true⟩, ⟨"subst.yaml", false⟩]
  | "/env/shared" => some []
  | "/env/prod" =>
    some [⟨"api", true⟩, ⟨"app", true⟩, ⟨"db", true⟩, ⟨"kustomization.yaml", false⟩,
      ⟨"secrets.ejson", false⟩, ⟨"subst.yaml", false⟩, ⟨"web", true⟩]
  | "/env/prod/app" => some [⟨"subst.yaml", false⟩]
  | "/env/prod/db" => some [⟨"subst.yaml", false⟩]
  | "/srv" =>
    some [⟨"app", true⟩, ⟨"bad", true⟩, ⟨"locked", true⟩, ⟨"subst.yaml", false⟩]
  | "/srv/app" => some [⟨"subst.yaml", false⟩]
  | "/srv/bad" => some [⟨"subst.yaml", false⟩]
  | "/srv/locked" => some [⟨"subst.yaml", false⟩]
  | "/env/prod/web" => some [⟨"subst.yaml", false⟩]
  | "/env/prod/api" => some [⟨"subst.yaml", false⟩]
  | _ => none

/-- The example tree as a world; map keys are enumerated in insertion order. -/
def exampleWorld : World where
  getwd := some "/env/prod"
  stat := fun path =>
    if path ∈ exampleDirs then some true
    else if (mapKeys (exampleFiles.map (fun f => (f.1, Value.ofStr f.2)))).contains path
    then some false else none
  readDir := exampleReadDir
  readFile := fun path => exampleFiles.lookup path
  yamlUnmarshalMap := exampleYaml
  yamlUnmarshalResources := fun content =>
    if content = "resources: [app, db, ../shared, missing]"
    then some ["app", "db", "../shared", "missing"] else none
  rangeKeys := fun keys => keys
  walk := fun root =>
    if root = "/env/prod" then
      ([("/env/prod", true), ("/env/prod/api", true), ("/env/prod/api/subst.yaml", false),
        ("/env/prod/app", true), ("/env/prod/app/subst.yaml", false),
        ("/env/prod/db", true), ("/env/prod/db/subst.yaml", false),
        ("/env/prod/kustomization.yaml", false), ("/env/prod/secrets.ejson", false),
        ("/env/prod/subst.yaml", false), ("/env/prod/web", true),
        ("/env/prod/web/subst.yaml", false)], none)
    else ([], some "lstat: no such file or directory")

/-- A decryptor that knows the secret file of the example tree. -/
def exampleDecryptor : Decryptor where
  IsEncrypted := fun content => .ok (decide (content.data.take 3 = ['E', 'J', '[']))
  Decrypt := fun content =>
    if content = "EJ[_public_key: k, token: t]"
    then .ok [("_public_key", .ofStr "k"), ("token", .ofStr "t")]
    else .error "invalid ejson"

/-- The processor for `/env/prod` before the loaders run, with the given
substitutions. -/
def exampleSubst (root : String) (resourcePaths : List String) (substitutions : GoMap) : Subst where
  Kustomization := ⟨root, resourcePaths⟩
  Substitutions := substitutions
  EjsonDecryptor := some exampleDecryptor
  Config := ⟨root⟩

/-- A decryptor whose secret document holds a nested mapping under `db`. -/
def nestedDecryptor : Decryptor where
  IsEncrypted := fun _ => .ok true
  Decrypt := fun _ => .ok [("_public_key", .ofStr "k"), ("db", .map [("port", .ofInt 5432)])]

/-- The example tree with the keys of a map enumerated last inserted first. -/
def exampleWorldReversed : World := { exampleWorld with rangeKeys := List.reverse }

/-- What `loadSubstFromPath` finds as the override file of a directory. -/
inductive OverrideFile where
  /-- The directory cannot be listed, or lists no regular file `subst.yaml`. -/
  | missing : OverrideFile
  /-- The file is listed, and `os.ReadFile` fails on it. -/
  | unreadable : OverrideFile
  /-- The file is read, and `yaml.Unmarshal` into a mapping fails on it. -/
  | unparseable : OverrideFile
  /-- The file is read and decoded to the mapping `doc`. -/
  | wellFormed (doc : GoMap) : OverrideFile
  deriving DecidableEq

/-- The document an override file contributes, if it is well formed. -/
def OverrideFile.doc? : OverrideFile → Option GoMap
  | .wellFormed doc => some doc
  | _ => none

/-- The entry is a regular file named `subst.yaml`. -/
def isSubstEntry (entry : DirEntry) : Bool := !entry.isDir && entry.name = "subst.yaml"

/-- The state of the override file of a directory in a world. -/
def overrideFileOf (w : World) (basePath : String) : OverrideFile :=
  match w.readDir basePath with
  | none => .missing
  | some entries =>
    if entries.any isSubstEntry then
      match w.readFile (Join [basePath, "subst.yaml"]) with
      | none => .unreadable
      | some content =>
        match w.yamlUnmarshalMap content with
        | none => .unparseable
        | some doc => .wellFormed doc
    else .missing

/-- The secret file is read, found encrypted and decrypted without error. -/
def decryptsOk (w : World) (d : Decryptor) (ejsonFile : String) : Bool :=
  match w.readFile ejsonFile with
  | none => false
  | some content =>
    match d.IsEncrypted content with
    | .ok true =>
      match d.Decrypt content with
      | .ok _ => true
      | .error _ => false
    | _ => false

/-- A decryptor that reports an error on every check. -/
def failingDecryptor : Decryptor where
  IsEncrypted := fun _ => .error "unreadable key"
  Decrypt := fun _ => .error "unreadable key"

/-- The value with the content of a mapping left out: what a key path shows
of the value it ends at. -/
def Value.shape : Value → Value
  | .map _ => .map []
  | v => v

/-- The value found by following a key path from the entry of its first key. -/
def getPathIn : Option Value → List String → Option Value
  | v, [] => v
  | some (.map inner), k :: rest => getPath inner (k :: rest)
  | _, _ :: _ => none

/-- Two contexts are the same Go map: at every key path either both hold
nothing, or both hold the same value that is not a mapping, or both hold a
mapping.  The order of the entries of a mapping, which a Go map does not have,
plays no part at any level. -/
def SameContent (a b : GoMap) : Prop :=
  ∀ path, (getPath a path).map Value.shape = (getPath b path).map Value.shape

/-- The override documents of two directories commute under merge: from every
starting context, loading one and then the other gives the same context as
loading them in the reverse order. -/
def Commute (w : World) (a b : String) : Prop :=
  ∀ x : GoMap, SameContent (mergeOverrides w (mergeOverrides w x a) b)
    (mergeOverrides w (mergeOverrides w x b) a)

mutual
/-- Two documents set no common key path to conflicting values: a key that
both hold is a mapping in both, and the two mappings are again compatible. -/
def compatibleEntries : List (String × Value) → GoMap → Bool
  | [], _ => true
  | (k, v) :: rest, other => compatibleAt v (mapGet k other) && compatibleEntries rest other
/-- The value of one document against the entry of the same key in the other. -/
def compatibleAt : Value → Option Value → Bool
  | _, none => true
  | .map inner, some (.map otherInner) => compatibleEntries inner otherInner
  | _, some _ => false
end

/-! ## Reading and writing mappings -/

theorem mapGet_mapSet_same (k : String) (v : Value) (m : GoMap) :
    mapGet k (mapSet k v m) = some v := by
  induction m with
  | nil => simp [mapSet, mapGet]
  | cons e rest ih =>
    obtain ⟨k2, v2⟩ := e
    by_cases h : k2 = k
    · simp [mapSet, mapGet, h]
    · simp [mapSet, mapGet, h, ih]

theorem mapGet_mapSet_ne {k j : String} (h : j ≠ k) (v : Value) (m : GoMap) :
    mapGet k (mapSet j v m) = mapGet k m := by
  induction m with
  | nil => simp [mapSet, mapGet, h]
  | cons e rest ih =>
    obtain ⟨k2, v2⟩ := e
    by_cases h2 : k2 = j
    · subst h2; simp [mapSet, mapGet, h]
    · by_cases h3 : k2 = k
      · subst h3; simp [mapSet, mapGet, h2]
      · simp [mapSet, mapGet, h2, h3, ih]

theorem mapGet_eq_none_of_not_mem {k : String} {m : GoMap} (h : k ∉ mapKeys m) :
    mapGet k m = none := by
  induction m with
  | nil => rfl
  | cons e rest ih =>
    obtain ⟨k2, v2⟩ := e
    simp only [mapKeys, List.map_cons, List.mem_cons, not_or] at h
    have h1 : ¬ k2 = k := fun hc => h.1 hc.symm
    simp only [mapGet, h1, if_false]
    exact ih h.2

theorem mem_mapKeys_of_mapGet {k : String} {v : Value} {m : GoMap} (h : mapGet k m = some v) :
    k ∈ mapKeys m := by
  by_contra hc
  rw [mapGet_eq_none_of_not_mem hc] at h
  cases h

theorem mapKeys_mapSet_of_mem {k : String} (v : Value) {m : GoMap} (h : k ∈ mapKeys m) :
    mapKeys (mapSet k v m) = mapKeys m := by
  induction m with
  | nil => simp [mapKeys] at h
  | cons e rest ih =>
    obtain ⟨k2, v2⟩ := e
    by_cases h2 : k2 = k
    · simp [mapSet, mapKeys, h2]
    · have h3 : k ∈ mapKeys rest := by
        simp only [mapKeys, List.map_cons, List.mem_cons] at h
        rcases h with h | h
        · exact absurd h.symm h2
        · exact h
      have := ih h3
      simp only [mapKeys] at this
      simp [mapSet, mapKeys, h2, this]

theorem mapKeys_mapSet_of_not_mem {k : String} (v : Value) {m : GoMap} (h : k ∉ mapKeys m) :
    mapKeys (mapSet k v m) = mapKeys m ++ [k] := by
  induction m with
  | nil => simp [mapSet, mapKeys]
  | cons e rest ih =>
    obtain ⟨k2, v2⟩ := e
    simp only [mapKeys, List.map_cons, List.mem_cons, not_or] at h
    have h2 : ¬ k2 = k := fun hc => h.1 hc.symm
    have := ih h.2
    simp only [mapKeys] at this
    simp [mapSet, mapKeys, h2, this]

/-! ## `DeepMerge` -/

theorem DeepMerge_cons (dst : GoMap) (entry : String × Value) (rest : GoMap) :
    DeepMerge dst (entry :: rest) = DeepMerge (DeepMerge.step dst entry) rest := rfl

theorem DeepMerge_nil (dst : GoMap) : DeepMerge dst [] = dst := rfl

theorem DeepMerge_step_eq (dst : GoMap) (key : String) (srcVal : Value) :
    DeepMerge.step dst (key, srcVal) =
      match mapGet key dst with
      | some dstVal => mapSet key (DeepMerge.both dstVal srcVal) dst
      | none => mapSet key srcVal dst := rfl

theorem DeepMerge_both_maps (dstMap srcMap : GoMap) :
    DeepMerge.both (.map dstMap) (.map srcMap) = .map (DeepMerge dstMap srcMap) := rfl

theorem DeepMerge_both_of_not_maps {dstVal srcVal : Value}
    (h : dstVal.isMap = false ∨ srcVal.isMap = false) :
    DeepMerge.both dstVal srcVal = srcVal := by
  cases srcVal <;> cases dstVal <;> simp_all [DeepMerge.both, Value.isMap]


theorem DeepMerge_stored_of_some {dst : GoMap} {key : String} {dstVal : Value}
    (h : mapGet key dst = some dstVal) (srcVal : Value) :
    DeepMerge.stored dst key srcVal = DeepMerge.both dstVal srcVal := by
  unfold DeepMerge.stored; rw [h]

theorem DeepMerge_stored_of_none {dst : GoMap} {key : String}
    (h : mapGet key dst = none) (srcVal : Value) :
    DeepMerge.stored dst key srcVal = srcVal := by
  unfold DeepMerge.stored; rw [h]

theorem DeepMerge_step_stored (dst : GoMap) (key : String) (srcVal : Value) :
    DeepMerge.step dst (key, srcVal) = mapSet key (DeepMerge.stored dst key srcVal) dst := by
  rw [DeepMerge_step_eq]
  unfold DeepMerge.stored
  cases mapGet key dst <;> rfl

/-- Merging leaves every key that `src` does not hold as it was in `dst`. -/
theorem mapGet_DeepMerge_of_not_mem {k : String} (src : GoMap) :
    ∀ dst : GoMap, k ∉ mapKeys src → mapGet k (DeepMerge dst src) = mapGet k dst := by
  induction src with
  | nil => intro dst _; rfl
  | cons e rest ih =>
    intro dst h
    obtain ⟨k2, v2⟩ := e
    simp only [mapKeys, List.map_cons, List.mem_cons, not_or] at h
    rw [DeepMerge_cons, ih _ h.2, DeepMerge_step_stored]
    exact mapGet_mapSet_ne (fun hc => h.1 hc.symm) _ _

/-- After merging, a key of `src` holds the value its loop iteration stored. -/
theorem mapGet_DeepMerge_of_mem {k : String} {sv : Value} (src : GoMap) :
    ∀ dst : GoMap, NodupKeys src → mapGet k src = some sv →
      mapGet k (DeepMerge dst src) = some (DeepMerge.stored dst k sv) := by
  induction src with
  | nil => intro dst _ h; simp [mapGet] at h
  | cons e rest ih =>
    intro dst hnd h
    obtain ⟨k2, v2⟩ := e
    have hnd2 : k2 ∉ mapKeys rest ∧ NodupKeys rest := by
      simpa [NodupKeys, mapKeys] using hnd
    rw [DeepMerge_cons, DeepMerge_step_stored]
    by_cases hk : k2 = k
    · subst hk
      simp only [mapGet, if_true, Option.some.injEq] at h
      subst h
      rw [mapGet_DeepMerge_of_not_mem rest _ hnd2.1, mapGet_mapSet_same]
    · simp only [mapGet, hk, if_false] at h
      rw [ih _ hnd2.2 h]
      unfold DeepMerge.stored
      rw [mapGet_mapSet_ne hk]

/-- C1: for all mappings `dst` and `src` (a Go map, so with unique keys) and
every key `k` of `src`, `DeepMerge(dst, src)` holds at `k`: the value of `src`
when `k` is absent from `dst`; `DeepMerge(dst[k], src[k])` when both values are
mappings; the value of `src`, replacing that of `dst`, when at least one of the
two is not a mapping.  Merging `{a:{x:1}}` then `{a:{y:2}}` gives
`{a:{x:1,y:2}}`, and merging `{a:1}` then `{a:{x:1}}` gives `{a:{x:1}}`. -/
theorem DeepMerge_at_src_key :
    (∀ (dst src : GoMap) (k : String) (sv : Value),
      NodupKeys src → mapGet k src = some sv →
        (mapGet k dst = none → mapGet k (DeepMerge dst src) = some sv) ∧
        (∀ dm sm, mapGet k dst = some (.map dm) → sv = .map sm →
          mapGet k (DeepMerge dst src) = some (.map (DeepMerge dm sm))) ∧
        (∀ dv, mapGet k dst = some dv → (dv.isMap = false ∨ sv.isMap = false) →
          mapGet k (DeepMerge dst src) = some sv)) ∧
    DeepMerge (DeepMerge [] [("a", .map [("x", .ofInt 1)])]) [("a", .map [("y", .ofInt 2)])]
      = [("a", .map [("x", .ofInt 1), ("y", .ofInt 2)])] ∧
    DeepMerge (DeepMerge [] [("a", .ofInt 1)]) [("a", .map [("x", .ofInt 1)])]
      = [("a", .map [("x", .ofInt 1)])] := by
  refine ⟨?_, by decide, by decide⟩
  intro dst src k sv hnd hk
  have key := mapGet_DeepMerge_of_mem src dst hnd hk
  refine ⟨?_, ?_, ?_⟩
  · intro h
    rw [key]; unfold DeepMerge.stored; rw [h]
  · intro dm sm h hs
    rw [key]; unfold DeepMerge.stored; rw [h, hs]; rfl
  · intro dv h hor
    rw [key]; unfold DeepMerge.stored; rw [h]
    exact congrArg some (DeepMerge_both_of_not_maps hor)

/-- Witness for C1: the key `a`, a mapping on both sides, is merged key-wise. -/
theorem DeepMerge_at_src_key_witness :
    mapGet "a" (DeepMerge [("a", .map [("x", .ofInt 1)])] [("a", .map [("y", .ofInt 2)])])
      = some (.map (DeepMerge [("x", .ofInt 1)] [("y", .ofInt 2)])) :=
  (DeepMerge_at_src_key.1 [("a", .map [("x", .ofInt 1)])] [("a", .map [("y", .ofInt 2)])]
    "a" (.map [("y", .ofInt 2)]) (by decide) (by decide)).2.1
    [("x", .ofInt 1)] [("y", .ofInt 2)] (by decide) rfl

/-! ## `filepath.Clean` never lengthens a non-empty path -/

theorem Clean_backtrack_length (dotdot : Nat) (out : List Char) :
    (Clean.backtrack dotdot out).length ≤ out.length := by
  induction out with
  | nil => simp [Clean.backtrack]
  | cons c out ih =>
    simp only [Clean.backtrack]
    split
    · exact Nat.le_succ_of_le ih
    · simp

theorem Clean_addSep_length (rooted : Bool) (out : List Char) :
    out.length ≤ (Clean.addSep rooted out).length ∧
      (Clean.addSep rooted out).length ≤ out.length + 1 := by
  unfold Clean.addSep
  split <;> simp

theorem Clean_addSep_unrooted (out : List Char) :
    Clean.addSep false out = if 0 < out.length then '/' :: out else out := by
  unfold Clean.addSep
  cases out <;> simp

theorem Clean_loop_length (rooted : Bool) : ∀ (rest out : List Char) (dotdot : Nat),
    (Clean.loop rooted rest .inElem out dotdot).length ≤ out.length + rest.length ∧
    (Clean.loop rooted rest .elemStart out dotdot).length ≤
      (if Clean.atElemEnd rest then out.length else (Clean.addSep rooted out).length)
        + rest.length ∧
    (Clean.atDotDot rest = true →
      (Clean.loop rooted rest .secondDot out dotdot).length ≤
        (Clean.addSep rooted out).length + 1 + rest.length) := by
  intro rest
  induction rest with
  | nil =>
    intro out dotdot
    simp [Clean.loop, Clean.atElemEnd, Clean.atDotDot]
  | cons c rest ih =>
    intro out dotdot
    have hsep := Clean_addSep_length rooted out
    have hstart : ∀ (o : List Char) (d : Nat),
        (Clean.loop rooted rest .elemStart o d).length ≤ o.length + 1 + rest.length := by
      intro o d
      have h := (ih o d).2.1
      have hs := Clean_addSep_length rooted o
      split at h <;> omega
    refine ⟨?_, ?_, ?_⟩
    · -- inside an element
      simp only [Clean.loop, List.length_cons]
      split
      · have := hstart out dotdot; omega
      · have := (ih (c :: out) dotdot).1
        simp only [List.length_cons] at this; omega
    · -- at the start of an element
      have hE : Clean.atElemEnd (c :: rest) = decide (c = '/') := rfl
      rw [hE]
      simp only [Clean.loop, List.length_cons]
      by_cases hc : c = '/'
      · have := hstart out dotdot
        simp only [hc, if_true, decide_True]; omega
      · simp only [hc, if_false, decide_False, Bool.false_eq_true]
        by_cases h1 : c = '.' ∧ Clean.atElemEnd rest = true
        · simp only [h1, and_self, if_true]
          have h := (ih out dotdot).2.1
          simp only [h1.2, if_true] at h
          omega
        · simp only [h1, if_false]
          by_cases h2 : c = '.' ∧ Clean.atDotDot rest = true
          · simp only [h2, and_self, if_true]
            have h := (ih out dotdot).2.2 h2.2
            omega
          · simp only [h2, if_false]
            have h := (ih (c :: Clean.addSep rooted out) dotdot).1
            simp only [List.length_cons] at h
            omega
    · -- on the second dot of `..`
      intro hdd
      have hend : Clean.atElemEnd rest = true := by
        simp only [Clean.atDotDot, Bool.and_eq_true] at hdd
        exact hdd.2
      have hstart2 : ∀ (o : List Char) (d : Nat),
          (Clean.loop rooted rest .elemStart o d).length ≤ o.length + rest.length := by
        intro o d
        have h := (ih o d).2.1
        simp only [hend, if_true] at h
        exact h
      simp only [Clean.loop, List.length_cons]
      split
      · have h := hstart2 (Clean.backtrack dotdot out) dotdot
        have hb := Clean_backtrack_length dotdot out
        omega
      · split
        · have h := hstart2 out dotdot
          omega
        · rename_i hr
          have hr2 : rooted = false := by simpa using hr
          subst hr2
          have h := hstart2 ('.' :: '.' :: (if 0 < out.length then '/' :: out else out))
            ('.' :: '.' :: (if 0 < out.length then '/' :: out else out)).length
          rw [Clean_addSep_unrooted] at hsep ⊢
          simp only [List.length_cons] at h ⊢
          omega

theorem Clean_buffer_length (path : List Char) : (Clean.buffer path).length ≤ path.length := by
  cases path with
  | nil => simp [Clean.buffer]
  | cons c rest =>
    simp only [Clean.buffer]
    split
    · have h := (Clean_loop_length true rest ['/'] 1).2.1
      have hs : Clean.addSep true ['/'] = ['/'] := by simp [Clean.addSep]
      rw [hs] at h
      simp only [ite_self, List.length_singleton, List.length_cons, List.length_nil] at h ⊢
      omega
    · rename_i hc
      have h := (Clean_loop_length false (c :: rest) [] 0).2.1
      have hs : Clean.addSep false [] = [] := by simp [Clean.addSep]
      rw [hs] at h
      simpa using h

/-- Cleaning a non-empty path yields a path that is not longer. -/
theorem Clean_chars_length {path : List Char} (h : path ≠ []) :
    (Clean.chars path).length ≤ path.length := by
  unfold Clean.chars
  have hpos : 1 ≤ path.length := by
    cases path with
    | nil => exact absurd rfl h
    | cons _ _ => simp
  simp only [h, if_false]
  split
  · simpa using hpos
  · simpa using Clean_buffer_length path

theorem Clean_chars_ne_nil (path : List Char) : Clean.chars path ≠ [] := by
  unfold Clean.chars
  split
  · simp
  · split
    · simp
    · simpa using ‹¬ Clean.buffer path = []›

/-! ## A trailing separator is dropped -/

theorem Clean_atElemEnd_append_sep (rest : List Char) :
    Clean.atElemEnd (rest ++ ['/']) = Clean.atElemEnd rest := by
  cases rest <;> simp [Clean.atElemEnd]

theorem Clean_atDotDot_append_sep (rest : List Char) :
    Clean.atDotDot (rest ++ ['/']) = Clean.atDotDot rest := by
  cases rest with
  | nil => simp [Clean.atDotDot]
  | cons d rest => simp [Clean.atDotDot, Clean_atElemEnd_append_sep]

theorem Clean_loop_append_sep (rooted : Bool) : ∀ (rest : List Char) (mode : Clean.Mode)
    (out : List Char) (dotdot : Nat), (mode = .secondDot → Clean.atDotDot rest = true) →
    Clean.loop rooted (rest ++ ['/']) mode out dotdot = Clean.loop rooted rest mode out dotdot := by
  intro rest
  induction rest with
  | nil =>
    intro mode out dotdot hm
    cases mode with
    | elemStart => simp [Clean.loop]
    | inElem => simp [Clean.loop]
    | secondDot => simp [Clean.atDotDot] at hm
  | cons c rest ih =>
    intro mode out dotdot hm
    have ihs : ∀ (o : List Char) (d : Nat),
        Clean.loop rooted (rest ++ ['/']) .elemStart o d = Clean.loop rooted rest .elemStart o d :=
      fun o d => ih .elemStart o d (fun h => by cases h)
    have ihe : ∀ (o : List Char) (d : Nat),
        Clean.loop rooted (rest ++ ['/']) .inElem o d = Clean.loop rooted rest .inElem o d :=
      fun o d => ih .inElem o d (fun h => by cases h)
    rw [List.cons_append]
    cases mode with
    | secondDot =>
      rw [Clean.loop, Clean.loop]
      simp only [ihs]
    | inElem =>
      rw [Clean.loop, Clean.loop]
      simp only [ihs, ihe]
    | elemStart =>
      rw [Clean.loop, Clean.loop]
      simp only [ihs, ihe, Clean_atElemEnd_append_sep, Clean_atDotDot_append_sep]
      by_cases h2 : c = '.' ∧ Clean.atDotDot rest = true
      · rw [ih .secondDot out dotdot (fun _ => h2.2)]
      · simp only [h2, if_false]

/-- A trailing separator does not change the cleaned form of a non-empty path. -/
theorem Clean_chars_append_sep {path : List Char} (h : path ≠ []) :
    Clean.chars (path ++ ['/']) = Clean.chars path := by
  have hb : Clean.buffer (path ++ ['/']) = Clean.buffer path := by
    cases path with
    | nil => exact absurd rfl h
    | cons c rest =>
      simp only [List.cons_append, Clean.buffer]
      rw [Clean_loop_append_sep true rest .elemStart _ _ (fun hc => by cases hc)]
      have := Clean_loop_append_sep false (c :: rest) .elemStart [] 0 (fun hc => by cases hc)
      simp only [List.cons_append] at this
      rw [this]
  unfold Clean.chars
  simp [h, hb]

/-! ## The ancestor loop -/

theorem Dir_upToLastSep_cases (path : List Char) :
    Dir.upToLastSep path = [] ∨
    (path = ['/']) ∨
    ((Dir.upToLastSep path).length < path.length ∧ Dir.upToLastSep path ≠ []) ∨
    (∃ front, front ≠ [] ∧ path = front ++ ['/'] ∧ Dir.upToLastSep path = path) := by
  unfold Dir.upToLastSep
  generalize hf : (fun c : Char => decide (c ≠ '/')) = f
  rcases hrev : path.reverse with _ | ⟨c, t⟩
  · left; simp
  · have hp : path = t.reverse ++ [c] := by
      have := congrArg List.reverse hrev
      simpa using this
    by_cases hc : c = '/'
    · have hfc : f c = false := by rw [← hf]; simp [hc]
      have hdw : List.dropWhile f (c :: t) = c :: t := by
        rw [List.dropWhile_cons, hfc]; rfl
      subst hc
      by_cases ht : t = []
      · right; left; simp [hp, ht]
      · right; right; right
        refine ⟨t.reverse, by simpa using ht, hp, ?_⟩
        rw [hdw, hp]; simp
    · have hfc : f c = true := by rw [← hf]; simp [hc]
      have hdw : List.dropWhile f (c :: t) = List.dropWhile f t := by
        rw [List.dropWhile_cons, hfc]; rfl
      rw [hdw]
      by_cases hd : List.dropWhile f t = []
      · left; rw [hd]; rfl
      · right; right; left
        have hle : (List.dropWhile f t).length ≤ t.length :=
          (List.dropWhile_sublist f).length_le
        constructor
        · rw [hp]
          simp only [List.length_reverse, List.length_append, List.length_singleton]
          omega
        · simpa using hd

/-- The parent computed by `filepath.Dir` is the stop value `.` or `/`, or is
strictly shorter than the path. -/
theorem Dir_chars_shorter (path : List Char) :
    Clean.chars (Dir.upToLastSep path) = ['.'] ∨
    Clean.chars (Dir.upToLastSep path) = ['/'] ∨
    (Clean.chars (Dir.upToLastSep path)).length < path.length := by
  rcases Dir_upToLastSep_cases path with h | h | h | h
  · left; rw [h]; rfl
  · right; left; rw [h]; decide
  · right; right
    exact lt_of_le_of_lt (Clean_chars_length h.2) h.1
  · right; right
    obtain ⟨front, hne, hp, hup⟩ := h
    rw [hup, hp, Clean_chars_append_sep hne]
    have := Clean_chars_length hne
    simp only [List.length_append, List.length_singleton]
    omega

theorem Dir_shorter (path : String) :
    Dir path = "." ∨ Dir path = "/" ∨ (Dir path).length < path.length := by
  rcases Dir_chars_shorter path.data with h | h | h
  · left; unfold Dir; rw [h]
  · right; left; unfold Dir; rw [h]
  · right; right; exact h

theorem ancestorChain_succ : ∀ (fuel : Nat) (currentPath : String) (chain : List String),
    ancestorChain fuel currentPath = some chain →
      ancestorChain (fuel + 1) currentPath = some chain := by
  intro fuel
  induction fuel with
  | zero => intro currentPath chain h; simp [ancestorChain] at h
  | succ n ih =>
    intro currentPath chain h
    rw [ancestorChain] at h ⊢
    split
    · rename_i hstop
      simpa only [hstop, if_true] using h
    · rename_i hstop
      simp only [hstop, if_false] at h
      cases htail : ancestorChain n (Dir currentPath) with
      | none => rw [htail] at h; cases h
      | some tail => rw [ih _ _ htail]; rw [htail] at h; exact h

theorem ancestorChain_le {fuel fuel2 : Nat} {currentPath : String} {chain : List String}
    (h : ancestorChain fuel currentPath = some chain) (hle : fuel ≤ fuel2) :
    ancestorChain fuel2 currentPath = some chain := by
  induction hle with
  | refl => exact h
  | step _ ih => exact ancestorChain_succ _ _ _ ih

/-- With more iterations allowed than the path has bytes, the ancestor loop
finishes; its entries start at the path, each next one is the `Dir` of the one
before and strictly shorter. -/
theorem ancestorChain_spec : ∀ (fuel : Nat) (currentPath : String),
    currentPath.length < fuel →
    ∃ chain, ancestorChain fuel currentPath = some chain ∧
      chain.head? = some currentPath ∧
      chain.Chain' (fun a b => b = Dir a ∧ b.length < a.length) ∧
      (∀ b ∈ chain, b.length ≤ currentPath.length) ∧
      chain.Pairwise (fun a b => b.length < a.length) := by
  intro fuel
  induction fuel with
  | zero => intro currentPath h; omega
  | succ n ih =>
    intro currentPath hlen
    rw [ancestorChain]
    split
    · exact ⟨[currentPath], rfl, rfl, List.chain'_singleton _, by simp, by simp⟩
    · rename_i hstop
      simp only [not_or] at hstop
      have hshort : (Dir currentPath).length < currentPath.length := by
        rcases Dir_shorter currentPath with h | h | h
        · exact absurd h hstop.2.2
        · exact absurd h hstop.2.1
        · exact h
      obtain ⟨tail, htail, hhead, hchain, hbound, hpair⟩ := ih (Dir currentPath) (by omega)
      refine ⟨currentPath :: tail, by rw [htail]; rfl, rfl, ?_, ?_, ?_⟩
      · cases tail with
        | nil => exact List.chain'_singleton _
        | cons b rest =>
          simp only [List.head?_cons, Option.some.injEq] at hhead
          exact List.Chain'.cons ⟨hhead, by rw [hhead]; exact hshort⟩ hchain
      · intro b hb
        rcases List.mem_cons.1 hb with h | h
        · rw [h]
        · exact le_of_lt (lt_of_le_of_lt (hbound b h) hshort)
      · exact List.pairwise_cons.2
          ⟨fun b hb => lt_of_le_of_lt (hbound b hb) hshort, hpair⟩

theorem nodup_of_pairwise_length {chain : List String}
    (h : chain.Pairwise (fun a b => b.length < a.length)) : chain.Nodup :=
  h.imp (fun hlt heq => by rw [heq] at hlt; exact lt_irrefl _ hlt)

/-- C6: for every starting directory path the ancestor loop of `loadSubstFiles`
terminates (any bound above the length of the path is enough iterations, and
the result does not depend on the bound); the sequence it yields starts with
the starting directory, each later entry is `filepath.Dir` of the entry before
it and strictly shorter, and no entry is repeated. -/
theorem ancestorChain_terminates (root : String) :
    ∃ chain : List String,
      (∀ fuel, root.length < fuel → ancestorChain fuel root = some chain) ∧
      chain.head? = some root ∧
      chain.Chain' (fun a b => b = Dir a ∧ b.length < a.length) ∧
      chain.Nodup := by
  obtain ⟨chain, hrun, hhead, hchain, _, hpair⟩ :=
    ancestorChain_spec (root.length + 1) root (Nat.lt_succ_self _)
  exact ⟨chain, fun fuel hf => ancestorChain_le hrun hf, hhead, hchain,
    nodup_of_pairwise_length hpair⟩

/-- Witness for C6: the loop started at `/a/b/c` visits `/a/b/c`, `/a/b`, `/a`. -/
theorem ancestorChain_terminates_witness :
    "/a/b/c".length < 7 ∧ ancestorChain 7 "/a/b/c" = some ["/a/b/c", "/a/b", "/a"] ∧
    ∃ chain : List String,
      (∀ fuel, "/a/b/c".length < fuel → ancestorChain fuel "/a/b/c" = some chain) ∧
      chain.head? = some "/a/b/c" ∧
      chain.Chain' (fun a b => b = Dir a ∧ b.length < a.length) ∧
      chain.Nodup :=
  ⟨by decide, by decide, ancestorChain_terminates "/a/b/c"⟩

/-! ## The set of directories and the order they are loaded in -/

theorem mem_setAdd {paths : List String} {path p : String} :
    p ∈ setAdd paths path ↔ p ∈ paths ∨ p = path := by
  unfold setAdd
  split
  · constructor
    · exact Or.inl
    · rintro (h | h)
      · exact h
      · rw [h]; assumption
  · simp

theorem nodup_setAdd {paths : List String} (path : String) (h : paths.Nodup) :
    (setAdd paths path).Nodup := by
  unfold setAdd
  split
  · exact h
  · rename_i hn
    exact List.Nodup.append h (List.nodup_singleton _) (by simpa using hn)

theorem foldl_setAdd_spec (chain : List String) : ∀ base : List String, base.Nodup →
    (chain.foldl setAdd base).Nodup ∧
      ∀ p, p ∈ chain.foldl setAdd base ↔ p ∈ base ∨ p ∈ chain := by
  induction chain with
  | nil => intro base h; simp [h]
  | cons c rest ih =>
    intro base h
    obtain ⟨hnd, hmem⟩ := ih (setAdd base c) (nodup_setAdd c h)
    refine ⟨hnd, fun p => ?_⟩
    rw [List.foldl_cons, hmem, mem_setAdd, List.mem_cons]
    tauto

theorem addResourcePaths_spec (w : World) (resourcePaths : List String) :
    ∀ base : List String, base.Nodup →
      (addResourcePaths w base resourcePaths).Nodup ∧
        ∀ p, p ∈ addResourcePaths w base resourcePaths ↔
          p ∈ base ∨ p ∈ resourcePaths.filterMap (Abs w.getwd) := by
  induction resourcePaths with
  | nil => intro base h; simp [addResourcePaths, h]
  | cons r rest ih =>
    intro base h
    unfold addResourcePaths at ih ⊢
    rw [List.foldl_cons]
    cases habs : Abs w.getwd r with
    | none =>
      obtain ⟨hnd, hmem⟩ := ih base h
      refine ⟨hnd, fun p => ?_⟩
      rw [hmem, List.filterMap_cons, habs]
    | some absPath =>
      obtain ⟨hnd, hmem⟩ := ih (setAdd base absPath) (nodup_setAdd absPath h)
      refine ⟨hnd, fun p => ?_⟩
      rw [hmem, mem_setAdd, List.filterMap_cons, habs, List.mem_cons]
      tauto

theorem sortSlice_perm (paths : List String) : (sortSlice depthLess paths).Perm paths :=
  List.perm_insertionSort _ paths

theorem depthLess_eq_false {a b : String} :
    depthLess b a = false ↔ countSeparators a ≤ countSeparators b := by
  simp [depthLess]

theorem sortSlice_sorted (paths : List String) :
    (sortSlice depthLess paths).Sorted (fun a b => countSeparators a ≤ countSeparators b) := by
  haveI : IsTotal String (fun a b => depthLess b a = false) :=
    ⟨fun a b => by simp only [depthLess_eq_false]; exact Nat.le_total _ _⟩
  haveI : IsTrans String (fun a b => depthLess b a = false) :=
    ⟨fun a b c => by simp only [depthLess_eq_false]; exact Nat.le_trans⟩
  have h := List.sorted_insertionSort (fun a b => depthLess b a = false) paths
  exact h.imp (fun hab => depthLess_eq_false.1 hab)

theorem Abs_of_abs_clean {getwd : Option String} {p : String}
    (h : IsAbs p = true ∧ Clean p = p) : Abs getwd p = some p := by
  unfold Abs
  rw [if_pos h.1, h.2]

theorem filterMap_Abs_of_abs_clean (getwd : Option String) (resourcePaths : List String)
    (h : ∀ p ∈ resourcePaths, IsAbs p = true ∧ Clean p = p) :
    resourcePaths.filterMap (Abs getwd) = resourcePaths := by
  induction resourcePaths with
  | nil => rfl
  | cons r rest ih =>
    rw [List.filterMap_cons, Abs_of_abs_clean (h r (List.mem_cons_self _ _)),
      ih (fun p hp => h p (List.mem_cons_of_mem _ hp))]

/-- The set of directories collected by `loadSubstFiles`: the ancestor loop
finishes, and the collected paths are the ancestors and the resource paths
made absolute, each once. -/
theorem loadOrder_collect (w : World) (root : String) (resourcePaths : List String) :
    ∃ chain : List String,
      ancestorChain (root.length + 1) root = some chain ∧
      loadOrder w root resourcePaths = some (sortSlice depthLess
        (w.rangeKeys (addResourcePaths w (chain.foldl setAdd []) resourcePaths))) ∧
      (addResourcePaths w (chain.foldl setAdd []) resourcePaths).Nodup ∧
      ∀ p, p ∈ addResourcePaths w (chain.foldl setAdd []) resourcePaths ↔
        p ∈ chain ∨ p ∈ resourcePaths.filterMap (Abs w.getwd) := by
  obtain ⟨chain, hrun, -⟩ := ancestorChain_spec (root.length + 1) root (Nat.lt_succ_self _)
  obtain ⟨hnd1, hmem1⟩ := foldl_setAdd_spec chain [] List.nodup_nil
  obtain ⟨hnd2, hmem2⟩ := addResourcePaths_spec w resourcePaths _ hnd1
  refine ⟨chain, hrun, ?_, hnd2, fun p => ?_⟩
  · unfold loadOrder
    rw [hrun]
  · rw [hmem2, hmem1]
    simp

/-- C4: for every root and every list of resource paths, the list of
directories `loadSubstFiles` loads is a duplicate-free permutation of the union
of the ancestor chain of root and the resource paths made absolute by
`filepath.Abs` (the resource paths themselves when they are absolute and
clean, as active resource paths are), and it is in non-decreasing order of
depth, the number of separators in the path. -/
theorem loadOrder_sorted_perm (w : World) (root : String) (resourcePaths : List String)
    (hrange : ∀ keys : List String, keys.Nodup → (w.rangeKeys keys).Perm keys) :
    ∃ chain paths : List String,
      ancestorChain (root.length + 1) root = some chain ∧
      loadOrder w root resourcePaths = some paths ∧
      paths.Nodup ∧
      paths.Perm (chain ++ resourcePaths.filterMap (Abs w.getwd)).dedup ∧
      ((∀ p ∈ resourcePaths, IsAbs p = true ∧ Clean p = p) →
        paths.Perm (chain ++ resourcePaths).dedup) ∧
      paths.Sorted (fun a b => countSeparators a ≤ countSeparators b) := by
  obtain ⟨chain, hrun, horder, hnd2, hmem⟩ := loadOrder_collect w root resourcePaths
  have hperm : (sortSlice depthLess
      (w.rangeKeys (addResourcePaths w (chain.foldl setAdd []) resourcePaths))).Perm
      (addResourcePaths w (chain.foldl setAdd []) resourcePaths) :=
    (sortSlice_perm _).trans (hrange _ hnd2)
  have hnd : (sortSlice depthLess
      (w.rangeKeys (addResourcePaths w (chain.foldl setAdd []) resourcePaths))).Nodup :=
    hperm.nodup_iff.2 hnd2
  have hunion : (sortSlice depthLess
      (w.rangeKeys (addResourcePaths w (chain.foldl setAdd []) resourcePaths))).Perm
      (chain ++ resourcePaths.filterMap (Abs w.getwd)).dedup := by
    refine (List.perm_ext_iff_of_nodup hnd (List.nodup_dedup _)).2 (fun p => ?_)
    rw [hperm.mem_iff, hmem, List.mem_dedup, List.mem_append]
  refine ⟨chain, _, hrun, horder, hnd, hunion, ?_, sortSlice_sorted _⟩
  intro habs
  rw [filterMap_Abs_of_abs_clean w.getwd resourcePaths habs] at hunion
  exact hunion

/-- Witness for C4: the example tree with root `/env/prod` and three resource
directories, two of them of equal depth. -/
theorem loadOrder_sorted_perm_witness :
    loadOrder exampleWorld "/env/prod" ["/env/prod/app", "/env/prod/db", "/env/shared"]
      = some ["/env", "/env/prod", "/env/shared", "/env/prod/app", "/env/prod/db"] ∧
    ∃ chain paths : List String,
      ancestorChain ("/env/prod".length + 1) "/env/prod" = some chain ∧
      loadOrder exampleWorld "/env/prod" ["/env/prod/app", "/env/prod/db", "/env/shared"]
        = some paths ∧
      paths.Nodup ∧
      paths.Perm (chain ++ ["/env/prod/app", "/env/prod/db", "/env/shared"].filterMap
        (Abs exampleWorld.getwd)).dedup ∧
      ((∀ p ∈ ["/env/prod/app", "/env/prod/db", "/env/shared"],
          IsAbs p = true ∧ Clean p = p) →
        paths.Perm (chain ++ ["/env/prod/app", "/env/prod/db", "/env/shared"]).dedup) ∧
      paths.Sorted (fun a b => countSeparators a ≤ countSeparators b) :=
  ⟨by decide,
    loadOrder_sorted_perm exampleWorld "/env/prod"
      ["/env/prod/app", "/env/prod/db", "/env/shared"] (fun keys _ => List.Perm.refl keys)⟩

/-! ## `parseKustomizationResources` -/

theorem Clean_ne_empty (path : String) : Clean path ≠ "" := by
  unfold Clean
  intro h
  have := congrArg String.data h
  exact Clean_chars_ne_nil _ this

theorem Join_ne_empty {elem : List String} (h : ∃ e ∈ elem, e ≠ "") : Join elem ≠ "" := by
  unfold Join
  split
  · rename_i hnil
    obtain ⟨e, he, hne⟩ := h
    have := List.dropWhile_eq_nil_iff.1 hnil e he
    simp only [decide_eq_true_eq] at this
    exact absurd this hne
  · exact Clean_ne_empty _

theorem findKustomizationPath_none (w : World) (root : String) (names : List String)
    (h : ∀ name ∈ names, w.stat (Join [root, name]) = none) :
    findKustomizationPath w root names = "" := by
  induction names with
  | nil => rfl
  | cons name rest ih =>
    simp only [findKustomizationPath, h name (List.mem_cons_self _ _)]
    exact ih (fun n hn => h n (List.mem_cons_of_mem _ hn))

theorem findKustomizationPath_some (w : World) (root : String) (names : List String)
    (hnames : ∀ name ∈ names, name ≠ "")
    (h : ∃ name ∈ names, w.stat (Join [root, name]) ≠ none) :
    findKustomizationPath w root names ≠ "" := by
  induction names with
  | nil => obtain ⟨n, hn, -⟩ := h; cases hn
  | cons name rest ih =>
    simp only [findKustomizationPath]
    cases hs : w.stat (Join [root, name]) with
    | some d =>
      exact Join_ne_empty ⟨name, by simp, hnames name (List.mem_cons_self _ _)⟩
    | none =>
      obtain ⟨n, hn, hne⟩ := h
      rcases List.mem_cons.1 hn with hn | hn
      · rw [hn, hs] at hne; exact absurd rfl hne
      · exact ih (fun m hm => hnames m (List.mem_cons_of_mem _ hm)) ⟨n, hn, hne⟩

theorem resolveResources_eq (w : World) (root : String) (resources : List String) :
    ∀ acc : List String, resolveResources w root resources acc =
      acc ++ (resources.map (fun r => Clean (Join [root, r]))).filter
        (fun p => w.stat p = some true) := by
  induction resources with
  | nil => intro acc; simp [resolveResources]
  | cons r rest ih =>
    intro acc
    simp only [resolveResources, List.map_cons]
    cases hs : w.stat (Clean (Join [root, r])) with
    | none => simp [ih, List.filter_cons, hs]
    | some d =>
      cases d with
      | true => simp [ih, List.filter_cons, hs]
      | false => simp [ih, List.filter_cons, hs]

/-- C5: for every root, every list of declared resource entries and every
filesystem state, after `parseKustomizationResources` on a fresh `Kustomize`
the resource paths are exactly the declared entries, each joined to root and
cleaned, that are existing directories, in declaration order, so nothing
undeclared and nothing that is not an existing directory is in the result; and
when none of the manifest-list names exists in root the result is empty and no
error is returned. -/
theorem parseKustomizationResources_active (w : World) (root : String) :
    ((∀ name ∈ ["kustomization.yaml", "kustomization.yml", "Kustomization"],
        w.stat (Join [root, name]) = none) →
      parseKustomizationResources w ⟨root, []⟩ = (⟨root, []⟩, none)) ∧
    (∀ content resources,
      (∃ name ∈ ["kustomization.yaml", "kustomization.yml", "Kustomization"],
        w.stat (Join [root, name]) ≠ none) →
      w.readFile (findKustomizationPath w root
        ["kustomization.yaml", "kustomization.yml", "Kustomization"]) = some content →
      w.yamlUnmarshalResources content = some resources →
      parseKustomizationResources w ⟨root, []⟩ =
        (⟨root, (resources.map (fun r => Clean (Join [root, r]))).filter
          (fun p => w.stat p = some true)⟩, none) ∧
      ∀ p, p ∈ (parseKustomizationResources w ⟨root, []⟩).1.GetResourcePaths ↔
        ∃ r ∈ resources, p = Clean (Join [root, r]) ∧ w.stat p = some true) := by
  constructor
  · intro h
    unfold parseKustomizationResources
    simp only [findKustomizationPath_none w root _ h, if_true]
  · intro content resources hex hread hyaml
    have hne := findKustomizationPath_some w root
      ["kustomization.yaml", "kustomization.yml", "Kustomization"] (by decide) hex
    have heq : parseKustomizationResources w ⟨root, []⟩ =
        (⟨root, (resources.map (fun r => Clean (Join [root, r]))).filter
          (fun p => w.stat p = some true)⟩, none) := by
      unfold parseKustomizationResources
      simp only [hne, if_false, hread, hyaml, resolveResources_eq, List.nil_append]
    refine ⟨heq, fun p => ?_⟩
    rw [heq]
    simp only [Kustomize.GetResourcePaths, List.mem_filter, List.mem_map, decide_eq_true_eq]
    constructor
    · rintro ⟨⟨r, hr, rfl⟩, hs⟩
      exact ⟨r, hr, rfl, hs⟩
    · rintro ⟨r, hr, hp, hs⟩
      exact ⟨⟨r, hr, hp.symm⟩, hs⟩

/-- Witness for C5: the manifest list of `/env/prod` declares `app`, `db`,
`../shared` and `missing`; the first three are directories. -/
theorem parseKustomizationResources_active_witness :
    parseKustomizationResources exampleWorld ⟨"/env/prod", []⟩ =
      (⟨"/env/prod", ["/env/prod/app", "/env/prod/db", "/env/shared"]⟩, none) :=
  ((parseKustomizationResources_active exampleWorld "/env/prod").2
    "resources: [app, db, ../shared, missing]" ["app", "db", "../shared", "missing"]
    ⟨"kustomization.yaml", by decide, by decide⟩ (by decide) (by decide)).1.trans (by decide)

/-! ## Well-formed documents and key paths -/

theorem GoMap.WF_iff (m : GoMap) : GoMap.WF m ↔ NodupKeys m ∧ Value.wfEntries m = true := by
  unfold GoMap.WF
  rw [Value.wf]
  simp

theorem wf_of_mapGet {k : String} {v : Value} {m : GoMap} (hwf : Value.wfEntries m = true)
    (h : mapGet k m = some v) : Value.wf v = true := by
  induction m with
  | nil => simp [mapGet] at h
  | cons e rest ih =>
    obtain ⟨k2, v2⟩ := e
    rw [Value.wfEntries, Bool.and_eq_true] at hwf
    by_cases hk : k2 = k
    · simp only [mapGet, hk, if_true, Option.some.injEq] at h
      rw [← h]; exact hwf.1
    · simp only [mapGet, hk, if_false] at h
      exact ih hwf.2 h

theorem GoMap.WF.nodupKeys {m : GoMap} (h : GoMap.WF m) : NodupKeys m :=
  ((GoMap.WF_iff m).1 h).1

theorem GoMap.WF.inner {m inner : GoMap} {k : String} (h : GoMap.WF m)
    (hk : mapGet k m = some (.map inner)) : GoMap.WF inner :=
  wf_of_mapGet ((GoMap.WF_iff m).1 h).2 hk

theorem not_mem_mapKeys_of_mapGet_none {k : String} {m : GoMap} (h : mapGet k m = none) :
    k ∉ mapKeys m := by
  induction m with
  | nil => simp [mapKeys]
  | cons e rest ih =>
    obtain ⟨k2, v2⟩ := e
    by_cases hk : k2 = k
    · simp [mapGet, hk] at h
    · simp only [mapGet, hk, if_false] at h
      simp only [mapKeys, List.map_cons, List.mem_cons, not_or]
      exact ⟨fun hc => hk hc.symm, ih h⟩

theorem getPath_cons_cons (m : GoMap) (k k2 : String) (rest : List String) :
    getPath m (k :: k2 :: rest) =
      match mapGet k m with
      | some (.map inner) => getPath inner (k2 :: rest)
      | _ => none := rfl

theorem getPath_cons_of_map {m inner : GoMap} {k : String} (h : mapGet k m = some (.map inner))
    {rest : List String} (hne : rest ≠ []) : getPath m (k :: rest) = getPath inner rest := by
  cases rest with
  | nil => exact absurd rfl hne
  | cons k2 rest2 => rw [getPath_cons_cons, h]

/-- A key path that ends in `src` at a value that is not a mapping holds
that value after the merge, whatever `dst` held. -/
theorem getPath_DeepMerge_of_src {v : Value} (hv : v.isMap = false) :
    ∀ (path : List String) (dst src : GoMap), GoMap.WF src →
      getPath src path = some v → getPath (DeepMerge dst src) path = some v := by
  intro path
  induction path with
  | nil => intro dst src _ h; simp [getPath] at h
  | cons k rest ih =>
    intro dst src hwf h
    cases rest with
    | nil =>
      have hk : mapGet k src = some v := h
      show mapGet k (DeepMerge dst src) = some v
      rw [mapGet_DeepMerge_of_mem src dst hwf.nodupKeys hk]
      unfold DeepMerge.stored
      cases mapGet k dst with
      | none => rfl
      | some dv => exact congrArg some (DeepMerge_both_of_not_maps (Or.inr hv))
    | cons k2 rest2 =>
      rw [getPath_cons_cons] at h
      cases hk : mapGet k src with
      | none => rw [hk] at h; cases h
      | some sv =>
        rw [hk] at h
        cases sv with
        | scalar _ => cases h
        | seq _ => cases h
        | map sinner =>
          simp only at h
          have hwfi : GoMap.WF sinner := hwf.inner hk
          have hm := mapGet_DeepMerge_of_mem src dst hwf.nodupKeys hk
          cases hd : mapGet k dst with
          | none =>
            rw [DeepMerge_stored_of_none hd] at hm
            rw [getPath_cons_of_map hm (by simp)]; exact h
          | some dv =>
            rw [DeepMerge_stored_of_some hd] at hm
            cases dv with
            | map dinner =>
              rw [DeepMerge_both_maps] at hm
              rw [getPath_cons_of_map hm (by simp)]
              exact ih dinner sinner hwfi h
            | scalar x =>
              rw [@DeepMerge_both_of_not_maps (.scalar x) _ (Or.inl rfl)] at hm
              rw [getPath_cons_of_map hm (by simp)]; exact h
            | seq x =>
              rw [@DeepMerge_both_of_not_maps (.seq x) _ (Or.inl rfl)] at hm
              rw [getPath_cons_of_map hm (by simp)]; exact h

/-- A key path of `dst` survives the merge when `src` does not hold the path
and holds only mappings at the prefixes of the path it does hold. -/
theorem getPath_DeepMerge_of_dst {v : Value} :
    ∀ (path : List String) (dst src : GoMap), GoMap.WF src →
      getPath dst path = some v → getPath src path = none →
      (∀ q, q <+: path → ∀ u, getPath src q = some u → u.isMap = true) →
      getPath (DeepMerge dst src) path = some v := by
  intro path
  induction path with
  | nil => intro dst src _ h; simp [getPath] at h
  | cons k rest ih =>
    intro dst src hwf h hnone hpre
    cases rest with
    | nil =>
      have hk : mapGet k src = none := hnone
      show mapGet k (DeepMerge dst src) = some v
      rw [mapGet_DeepMerge_of_not_mem src dst (not_mem_mapKeys_of_mapGet_none hk)]
      exact h
    | cons k2 rest2 =>
      rw [getPath_cons_cons] at h
      cases hd : mapGet k dst with
      | none => rw [hd] at h; cases h
      | some dv =>
        rw [hd] at h
        cases dv with
        | scalar _ => cases h
        | seq _ => cases h
        | map dinner =>
          simp only at h
          cases hk : mapGet k src with
          | none =>
            have hm := mapGet_DeepMerge_of_not_mem src dst (not_mem_mapKeys_of_mapGet_none hk)
            rw [hd] at hm
            rw [getPath_cons_of_map hm (by simp)]; exact h
          | some sv =>
            have hmap : sv.isMap = true :=
              hpre [k] (by simp [List.prefix_cons_inj, List.nil_prefix]) sv hk
            cases sv with
            | scalar _ => cases hmap
            | seq _ => cases hmap
            | map sinner =>
              have hm := mapGet_DeepMerge_of_mem src dst hwf.nodupKeys hk
              rw [DeepMerge_stored_of_some hd, DeepMerge_both_maps] at hm
              rw [getPath_cons_of_map hm (by simp)]
              rw [getPath_cons_of_map hk (by simp)] at hnone
              refine ih dinner sinner (hwf.inner hk) h hnone (fun q hq u hu => ?_)
              cases q with
              | nil => simp [getPath] at hu
              | cons q1 qrest =>
                refine hpre (k :: q1 :: qrest) ?_ u ?_
                · exact (List.prefix_cons_inj k).2 hq
                · rw [getPath_cons_of_map hk (by simp)]; exact hu

/-! ## Loading override files -/

theorem foldl_loadSubstEntry (w : World) (basePath : String) :
    ∀ (entries : List DirEntry) (s : Subst),
      entries.foldl (loadSubstEntry w basePath) s =
        { s with Substitutions :=
            (entries.filterMap
              (fun entry =>
                if entry.isDir then none
                else if entry.name = "subst.yaml" then
                  match loadSubstFile w (Join [basePath, entry.name]) with
                  | .error _ => none
                  | .ok substData => some substData
                else none)).foldl DeepMerge s.Substitutions } := by
  intro entries
  induction entries with
  | nil => intro s; rfl
  | cons e rest ih =>
    intro s
    rw [List.foldl_cons, ih, List.filterMap_cons]
    unfold loadSubstEntry
    by_cases hd : e.isDir = true
    · simp only [hd, if_true]
    · simp only [hd, if_false, Bool.false_eq_true]
      by_cases hn : e.name = "subst.yaml"
      · simp only [hn, if_true]
        cases loadSubstFile w (Join [basePath, "subst.yaml"]) with
        | error _ => rfl
        | ok substData => rfl
      · simp only [hn, if_false]

/-- Loading a directory merges its override documents, in order, and changes
nothing else. -/
theorem loadSubstFromPath_eq (w : World) (s : Subst) (basePath : String) :
    (loadSubstFromPath w s basePath).1 =
      { s with Substitutions := (overrideDocs w basePath).foldl DeepMerge s.Substitutions } := by
  unfold loadSubstFromPath overrideDocs
  cases w.readDir basePath with
  | none => rfl
  | some entries => exact foldl_loadSubstEntry w basePath entries s

theorem loadSubstPaths_cons (w : World) (s : Subst) (path : String) (paths : List String) :
    loadSubstPaths w s (path :: paths) =
      loadSubstPaths w (loadSubstFromPath w s path).1 paths := rfl

theorem loadSubstPaths_nil (w : World) (s : Subst) : loadSubstPaths w s [] = s := rfl

/-- C2, as the code has it: for every starting context and every pair of
override documents P (from the directory loaded first, the shallower one) and
C (from the directory loaded after it), the final context is
`DeepMerge(DeepMerge(context, P), C)`; at every key path where C holds a value
that is not a mapping the final context holds the value of C (so also at every
such path present in both); and at every key path where P holds a value that
is not a mapping, that is absent from C, and at whose prefixes C holds
nothing but mappings, the final context holds the value of P.  The parent
override `{env: base}` followed by the root override `{env: prod, replicas: 3}`
on an empty context yields exactly `{env: prod, replicas: 3}`. -/
theorem loadSubstPaths_parent_then_child :
    (∀ (w : World) (s : Subst) (dP dC : String) (P C : GoMap),
      overrideDocs w dP = [P] → overrideDocs w dC = [C] → GoMap.WF P → GoMap.WF C →
        (loadSubstPaths w s [dP, dC]).Substitutions = DeepMerge (DeepMerge s.Substitutions P) C ∧
        (∀ path v, getPath C path = some v → v.isMap = false →
          getPath (loadSubstPaths w s [dP, dC]).Substitutions path = some v) ∧
        (∀ path v, getPath P path = some v → v.isMap = false → getPath C path = none →
          (∀ q, q <+: path → ∀ u, getPath C q = some u → u.isMap = true) →
          getPath (loadSubstPaths w s [dP, dC]).Substitutions path = some v)) ∧
    (loadSubstFiles exampleWorld (exampleSubst "/env/prod" [] [])).map
        (fun r => (r.1.Substitutions, r.2))
      = some ([("env", .ofStr "prod"), ("replicas", .ofInt 3)], none) := by
  refine ⟨?_, by decide⟩
  intro w s dP dC P C hP hC hwfP hwfC
  have hfinal : (loadSubstPaths w s [dP, dC]).Substitutions
      = DeepMerge (DeepMerge s.Substitutions P) C := by
    rw [loadSubstPaths_cons, loadSubstPaths_cons, loadSubstPaths_nil,
      loadSubstFromPath_eq, loadSubstFromPath_eq, hP, hC]
    rfl
  refine ⟨hfinal, ?_, ?_⟩
  · intro path v hv hnm
    rw [hfinal]
    exact getPath_DeepMerge_of_src hnm path _ C hwfC hv
  · intro path v hv hnm hnone hpre
    rw [hfinal]
    exact getPath_DeepMerge_of_dst path _ C hwfC
      (getPath_DeepMerge_of_src hnm path _ P hwfP hv) hnone hpre

/-- Witness for C2: `/env` then `/env/prod` of the example tree; the key
`replicas` is set by the deeper directory only, `env` by both. -/
theorem loadSubstPaths_parent_then_child_witness :
    getPath (loadSubstPaths exampleWorld (exampleSubst "/env/prod" [] []) ["/env", "/env/prod"]).Substitutions
      ["env"] = some (.ofStr "prod") :=
  (loadSubstPaths_parent_then_child.1 exampleWorld (exampleSubst "/env/prod" [] [])
    "/env" "/env/prod" [("env", .ofStr "base")] [("env", .ofStr "prod"), ("replicas", .ofInt 3)]
    (by decide) (by decide) (by decide) (by decide)).2.1 ["env"] (.ofStr "prod")
    (by decide) (by decide)

/-- Counterexample to C2 as stated: `/srv` holds `a: (x: 1)` and `/srv/app`
holds `a: 5`.  The key path `a.x` is present in the parent document only, and
the final context does not hold it: the scalar replaced the whole mapping. -/
theorem loadSubstPaths_only_parent_counterexample :
    loadOrder exampleWorld "/srv/app" [] = some ["/srv", "/srv/app"] ∧
    overrideDocs exampleWorld "/srv" = [[("a", .map [("x", .ofInt 1)])]] ∧
    overrideDocs exampleWorld "/srv/app" = [[("a", .ofInt 5)]] ∧
    getPath [("a", .map [("x", .ofInt 1)])] ["a", "x"] = some (.ofInt 1) ∧
    getPath [("a", .ofInt 5)] ["a", "x"] = none ∧
    (loadSubstPaths exampleWorld (exampleSubst "/srv/app" [] []) ["/srv", "/srv/app"]).Substitutions
      = [("a", .ofInt 5)] ∧
    getPath (loadSubstPaths exampleWorld (exampleSubst "/srv/app" [] [])
      ["/srv", "/srv/app"]).Substitutions ["a", "x"] ≠ some (.ofInt 1) := by
  decide

/-! ## Loading secrets -/

theorem mem_mapKeys_mapSet {x k : String} {v : Value} {m : GoMap} :
    x ∈ mapKeys (mapSet k v m) ↔ x = k ∨ x ∈ mapKeys m := by
  by_cases h : k ∈ mapKeys m
  · rw [mapKeys_mapSet_of_mem v h]
    constructor
    · exact Or.inr
    · rintro (hx | hx)
      · rw [hx]; exact h
      · exact hx
  · rw [mapKeys_mapSet_of_not_mem v h]
    simp only [List.mem_append, List.mem_singleton]
    tauto

theorem mapSet_of_not_mem {k : String} (v : Value) {m : GoMap} (h : k ∉ mapKeys m) :
    mapSet k v m = m ++ [(k, v)] := by
  induction m with
  | nil => rfl
  | cons e rest ih =>
    obtain ⟨k2, v2⟩ := e
    simp only [mapKeys, List.map_cons, List.mem_cons, not_or] at h
    have h2 : ¬ k2 = k := fun hc => h.1 hc.symm
    have := ih h.2
    simp only [mapSet, h2, if_false, List.cons_append, this]

theorem copySecretKeys_cons (e : String × Value) (rest acc : GoMap) :
    copySecretKeys (e :: rest) acc =
      copySecretKeys rest (if e.1 ≠ "_public_key" then mapSet e.1 e.2 acc else acc) := rfl

/-- The reserved key is never added to the namespace. -/
theorem publicKey_not_mem_copySecretKeys (D : GoMap) : ∀ acc : GoMap,
    "_public_key" ∉ mapKeys acc → "_public_key" ∉ mapKeys (copySecretKeys D acc) := by
  induction D with
  | nil => intro acc h; exact h
  | cons e rest ih =>
    intro acc h
    rw [copySecretKeys_cons]
    apply ih
    split
    · rename_i hne
      rw [mem_mapKeys_mapSet]
      rintro (hc | hc)
      · exact hne hc.symm
      · exact h hc
    · exact h

theorem mapGet_copySecretKeys_of_not_mem {k : String} (D : GoMap) : ∀ acc : GoMap,
    (k = "_public_key" ∨ k ∉ mapKeys D) →
      mapGet k (copySecretKeys D acc) = mapGet k acc := by
  induction D with
  | nil => intro acc _; rfl
  | cons e rest ih =>
    intro acc h
    rw [copySecretKeys_cons]
    have hrest : k = "_public_key" ∨ k ∉ mapKeys rest := by
      rcases h with h | h
      · exact Or.inl h
      · exact Or.inr (fun hc => h (List.mem_cons_of_mem _ hc))
    rw [ih _ hrest]
    split
    · rename_i hne
      apply mapGet_mapSet_ne
      intro hc
      rcases h with h | h
      · exact hne (hc.trans h)
      · exact h (by rw [← hc]; exact List.mem_cons_self _ _)
    · rfl

theorem mapGet_copySecretKeys_of_mem {k : String} {v : Value} (D : GoMap) : ∀ acc : GoMap,
    NodupKeys D → k ≠ "_public_key" → mapGet k D = some v →
      mapGet k (copySecretKeys D acc) = some v := by
  induction D with
  | nil => intro acc _ _ h; simp [mapGet] at h
  | cons e rest ih =>
    intro acc hnd hk h
    obtain ⟨k2, v2⟩ := e
    have hnd2 : k2 ∉ mapKeys rest ∧ NodupKeys rest := by
      simpa [NodupKeys, mapKeys] using hnd
    rw [copySecretKeys_cons]
    by_cases hkk : k2 = k
    · subst hkk
      simp only [mapGet, if_true, Option.some.injEq] at h
      subst h
      rw [mapGet_copySecretKeys_of_not_mem rest _ (Or.inr hnd2.1)]
      simp only [ne_eq, hk, not_false_eq_true, if_true]
      exact mapGet_mapSet_same _ _ _
    · simp only [mapGet, hkk, if_false] at h
      exact ih _ hnd2.2 hk h

/-- Copying into an empty namespace yields the document without the reserved
key, entry for entry. -/
theorem copySecretKeys_eq_filter (D : GoMap) : ∀ acc : GoMap,
    NodupKeys D → (∀ k ∈ mapKeys D, k ∉ mapKeys acc) →
      copySecretKeys D acc = acc ++ D.filter (fun e => e.1 ≠ "_public_key") := by
  induction D with
  | nil => intro acc _ _; simp [copySecretKeys]
  | cons e rest ih =>
    intro acc hnd hdisj
    obtain ⟨k2, v2⟩ := e
    have hnd2 : k2 ∉ mapKeys rest ∧ NodupKeys rest := by
      simpa [NodupKeys, mapKeys] using hnd
    have hk2 : k2 ∉ mapKeys acc := hdisj k2 (List.mem_cons_self _ _)
    rw [copySecretKeys_cons]
    by_cases hpk : k2 = "_public_key"
    · simp only [ne_eq, hpk, not_true_eq_false, if_false, List.filter_cons, decide_False,
        Bool.false_eq_true]
      exact ih acc hnd2.2 (fun k hk => hdisj k (List.mem_cons_of_mem _ hk))
    · simp only [ne_eq, hpk, not_false_eq_true, if_true, List.filter_cons, decide_True]
      rw [ih _ hnd2.2, mapSet_of_not_mem v2 hk2, List.append_assoc]
      · rfl
      · intro k hk
        rw [mem_mapKeys_mapSet]
        rintro (hc | hc)
        · exact hnd2.1 (hc ▸ hk)
        · exact hdisj k (List.mem_cons_of_mem _ hk) hc

theorem loadEjsonFile_ok {w : World} {d : Decryptor} {file content : String} {D : GoMap}
    (s : Subst) (hread : w.readFile file = some content)
    (henc : d.IsEncrypted content = .ok true) (hdec : d.Decrypt content = .ok D) :
    loadEjsonFile w d s file =
      { s with Substitutions := addToEjsonNamespace s.Substitutions D } := by
  unfold loadEjsonFile
  simp only [hread, henc, hdec]

/-- C3: starting from a context with no `ejson` key, after one encrypted secret
file with decrypted content D is processed, the `ejson` entry of the context is
a mapping that never holds the key `_public_key`, and it is exactly D with
`_public_key` removed (D being a Go map, with unique keys); decrypting
`{_public_key: k, token: t}` on an empty context yields `{ejson: {token: t}}`. -/
theorem loadEjsonFile_creates_namespace :
    (∀ (w : World) (d : Decryptor) (s : Subst) (file content : String) (D : GoMap),
      w.readFile file = some content → d.IsEncrypted content = .ok true →
      d.Decrypt content = .ok D → mapGet "ejson" s.Substitutions = none →
        (∃ ns, mapGet "ejson" (loadEjsonFile w d s file).Substitutions = some (.map ns) ∧
          "_public_key" ∉ mapKeys ns) ∧
        (NodupKeys D →
          mapGet "ejson" (loadEjsonFile w d s file).Substitutions
            = some (.map (D.filter (fun e => e.1 ≠ "_public_key"))))) ∧
    (loadEjsonFiles exampleWorld (exampleSubst "/env/prod" [] [])).1.Substitutions
      = [("ejson", .map [("token", .ofStr "t")])] := by
  refine ⟨?_, by decide⟩
  intro w d s file content D hread henc hdec hfresh
  have hafter : (loadEjsonFile w d s file).Substitutions
      = mapSet "ejson" (.map (copySecretKeys D [])) s.Substitutions := by
    rw [loadEjsonFile_ok s hread henc hdec]
    show addToEjsonNamespace s.Substitutions D = _
    unfold addToEjsonNamespace
    rw [hfresh]
  rw [hafter, mapGet_mapSet_same]
  refine ⟨⟨_, rfl, publicKey_not_mem_copySecretKeys D [] (by simp [mapKeys])⟩, fun hnd => ?_⟩
  rw [copySecretKeys_eq_filter D [] hnd (fun k _ => by simp [mapKeys])]
  rfl

/-- Witness for C3: the secret file of the example tree on an empty context. -/
theorem loadEjsonFile_creates_namespace_witness :
    mapGet "ejson" (loadEjsonFile exampleWorld exampleDecryptor (exampleSubst "/env/prod" [] [])
      "/env/prod/secrets.ejson").Substitutions
      = some (.map (([("_public_key", .ofStr "k"), ("token", .ofStr "t")] : GoMap).filter
          (fun e => e.1 ≠ "_public_key"))) :=
  (loadEjsonFile_creates_namespace.1 exampleWorld exampleDecryptor (exampleSubst "/env/prod" [] [])
    "/env/prod/secrets.ejson" "EJ[_public_key: k, token: t]"
    [("_public_key", .ofStr "k"), ("token", .ofStr "t")]
    (by decide) rfl rfl (by decide)).2 (by decide)

/-- C7, the code at the failing input: when the context already holds a scalar
under `ejson`, the decrypted keys are dropped and the entry stays the scalar. -/
theorem loadEjsonFiles_scalar_namespace :
    (loadEjsonFiles exampleWorld (exampleSubst "/env/prod" [] [("ejson", .ofStr "x")])).2 = none ∧
    (loadEjsonFiles exampleWorld
      (exampleSubst "/env/prod" [] [("ejson", .ofStr "x")])).1.Substitutions
      = [("ejson", .ofStr "x")] := by
  decide

theorem mapGet_addToEjsonNamespace_ne {k : String} (hk : k ≠ "ejson")
    (substitutions D : GoMap) :
    mapGet k (addToEjsonNamespace substitutions D) = mapGet k substitutions := by
  unfold addToEjsonNamespace
  cases mapGet "ejson" substitutions with
  | none => exact mapGet_mapSet_ne (Ne.symm hk) _ _
  | some ejsonData =>
    cases ejsonData with
    | scalar _ => rfl
    | seq _ => rfl
    | map ejsonMap => exact mapGet_mapSet_ne (Ne.symm hk) _ _

theorem mapGet_loadEjsonFile_ne {k : String} (hk : k ≠ "ejson") (w : World) (d : Decryptor)
    (s : Subst) (ejsonFile : String) :
    mapGet k (loadEjsonFile w d s ejsonFile).Substitutions = mapGet k s.Substitutions := by
  unfold loadEjsonFile
  cases w.readFile ejsonFile with
  | none => rfl
  | some content =>
    simp only
    cases d.IsEncrypted content with
    | error _ => rfl
    | ok b =>
      cases b with
      | false => rfl
      | true =>
        simp only
        cases d.Decrypt content with
        | error _ => rfl
        | ok D => exact mapGet_addToEjsonNamespace_ne hk _ _

theorem mapGet_foldl_loadEjsonFile_ne {k : String} (hk : k ≠ "ejson") (w : World)
    (d : Decryptor) (ejsonFiles : List String) : ∀ s : Subst,
    mapGet k (ejsonFiles.foldl (loadEjsonFile w d) s).Substitutions
      = mapGet k s.Substitutions := by
  induction ejsonFiles with
  | nil => intro s; rfl
  | cons f rest ih =>
    intro s
    rw [List.foldl_cons, ih, mapGet_loadEjsonFile_ne hk]

/-- C8: for every context, every list of secret files and every outcome of
reading, checking and decrypting them, `loadEjsonFiles` leaves every top-level
key other than `ejson` with the same presence and the same value. -/
theorem loadEjsonFiles_frame (w : World) (s : Subst) (k : String) (hk : k ≠ "ejson") :
    mapGet k (loadEjsonFiles w s).1.Substitutions = mapGet k s.Substitutions := by
  unfold loadEjsonFiles
  cases s.EjsonDecryptor with
  | none => rfl
  | some d =>
    simp only
    rcases hfind : findEjsonFiles w s with ⟨ejsonFiles, err⟩
    cases err with
    | some e => rfl
    | none => exact mapGet_foldl_loadEjsonFile_ne hk w d ejsonFiles s

/-- Witness for C8: the key `env` of a context is untouched by the secret file
of the example tree, which adds `token` under `ejson` only. -/
theorem loadEjsonFiles_frame_witness :
    mapGet "env" (loadEjsonFiles exampleWorld
      (exampleSubst "/env/prod" [] [("env", .ofStr "prod")])).1.Substitutions
      = some (.ofStr "prod") ∧
    mapGet "token" (loadEjsonFiles exampleWorld
      (exampleSubst "/env/prod" [] [("env", .ofStr "prod")])).1.Substitutions = none :=
  ⟨loadEjsonFiles_frame exampleWorld (exampleSubst "/env/prod" [] [("env", .ofStr "prod")])
      "env" (by decide), by decide⟩

/-- Copying the secret keys is a deep merge when no key holds a mapping on
both sides. -/
theorem copySecretKeys_eq_DeepMerge (D : GoMap) : ∀ acc : GoMap, NodupKeys D →
    (∀ e ∈ D, e.1 ≠ "_public_key" → ∀ dv, mapGet e.1 acc = some dv →
      dv.isMap = false ∨ e.2.isMap = false) →
    copySecretKeys D acc = DeepMerge acc (D.filter (fun e => e.1 ≠ "_public_key")) := by
  induction D with
  | nil => intro acc _ _; rfl
  | cons e rest ih =>
    intro acc hnd hcond
    obtain ⟨k2, v2⟩ := e
    have hnd2 : k2 ∉ mapKeys rest ∧ NodupKeys rest := by
      simpa [NodupKeys, mapKeys] using hnd
    rw [copySecretKeys_cons]
    by_cases hpk : k2 = "_public_key"
    · simp only [ne_eq, hpk, not_true_eq_false, if_false, List.filter_cons, decide_False,
        Bool.false_eq_true]
      exact ih acc hnd2.2 (fun e he => hcond e (List.mem_cons_of_mem _ he))
    · simp only [ne_eq, hpk, not_false_eq_true, if_true, List.filter_cons, decide_True]
      rw [DeepMerge_cons, DeepMerge_step_stored]
      have hstored : DeepMerge.stored acc k2 v2 = v2 := by
        cases hd : mapGet k2 acc with
        | none => exact DeepMerge_stored_of_none hd v2
        | some dv =>
          rw [DeepMerge_stored_of_some hd]
          exact DeepMerge_both_of_not_maps (hcond (k2, v2) (List.mem_cons_self _ _) hpk dv hd)
      rw [hstored]
      apply ih _ hnd2.2
      intro e he hne dv hdv
      have hek : k2 ≠ e.1 := by
        intro hc
        apply hnd2.1
        rw [hc]
        exact List.mem_map_of_mem Prod.fst he
      rw [mapGet_mapSet_ne hek] at hdv
      exact hcond e (List.mem_cons_of_mem _ he) hne dv hdv

/-- C9, as the code has it: for every context whose `ejson` entry is a mapping
and every decrypted secret document D (a Go map, with unique keys), after the
file is processed the `ejson` entry is a mapping in which every key of D other
than `_public_key` holds the value of D, whole, every other key is as before,
and the rest of the context is unchanged.  The result equals
`DeepMerge(context, {ejson: D without _public_key})` when no key holds a
mapping both in the namespace and in D; a nested mapping under a key that both
hold is replaced, not merged key-wise. -/
theorem loadEjsonFile_shallow (w : World) (d : Decryptor) (s : Subst) (file content : String)
    (D ns : GoMap) (hread : w.readFile file = some content)
    (henc : d.IsEncrypted content = .ok true) (hdec : d.Decrypt content = .ok D)
    (hns : mapGet "ejson" s.Substitutions = some (.map ns)) (hnd : NodupKeys D) :
    (∃ ns2, mapGet "ejson" (loadEjsonFile w d s file).Substitutions = some (.map ns2) ∧
      (∀ k v, k ≠ "_public_key" → mapGet k D = some v → mapGet k ns2 = some v) ∧
      (∀ k, k = "_public_key" ∨ mapGet k D = none → mapGet k ns2 = mapGet k ns)) ∧
    (∀ k, k ≠ "ejson" →
      mapGet k (loadEjsonFile w d s file).Substitutions = mapGet k s.Substitutions) ∧
    ((∀ e ∈ D, e.1 ≠ "_public_key" → ∀ dv, mapGet e.1 ns = some dv →
        dv.isMap = false ∨ e.2.isMap = false) →
      (loadEjsonFile w d s file).Substitutions =
        DeepMerge s.Substitutions
          [("ejson", .map (D.filter (fun e => e.1 ≠ "_public_key")))]) := by
  have hafter : (loadEjsonFile w d s file).Substitutions
      = mapSet "ejson" (.map (copySecretKeys D ns)) s.Substitutions := by
    rw [loadEjsonFile_ok s hread henc hdec]
    show addToEjsonNamespace s.Substitutions D = _
    unfold addToEjsonNamespace
    rw [hns]
  refine ⟨⟨copySecretKeys D ns, ?_, ?_, ?_⟩, ?_, ?_⟩
  · rw [hafter, mapGet_mapSet_same]
  · intro k v hk hv
    exact mapGet_copySecretKeys_of_mem D ns hnd hk hv
  · intro k hk
    apply mapGet_copySecretKeys_of_not_mem D ns
    rcases hk with hk | hk
    · exact Or.inl hk
    · exact Or.inr (not_mem_mapKeys_of_mapGet_none hk)
  · intro k hk
    rw [hafter]
    exact mapGet_mapSet_ne (Ne.symm hk) _ _
  · intro hcond
    rw [hafter, DeepMerge_cons, DeepMerge_nil, DeepMerge_step_stored,
      DeepMerge_stored_of_some hns, DeepMerge_both_maps,
      copySecretKeys_eq_DeepMerge D ns hnd hcond]

/-- Witness for C9: the secret `token` is added to a namespace that already
holds `user`; the result is the deep merge. -/
theorem loadEjsonFile_shallow_witness :
    (loadEjsonFile exampleWorld exampleDecryptor
      (exampleSubst "/env/prod" [] [("ejson", .map [("user", .ofStr "u")])])
      "/env/prod/secrets.ejson").Substitutions =
    DeepMerge [("ejson", .map [("user", .ofStr "u")])]
      [("ejson", .map (([("_public_key", .ofStr "k"), ("token", .ofStr "t")] : GoMap).filter
        (fun e => e.1 ≠ "_public_key")))] :=
  (loadEjsonFile_shallow exampleWorld exampleDecryptor
    (exampleSubst "/env/prod" [] [("ejson", .map [("user", .ofStr "u")])])
    "/env/prod/secrets.ejson" "EJ[_public_key: k, token: t]"
    [("_public_key", .ofStr "k"), ("token", .ofStr "t")] [("user", .ofStr "u")]
    (by decide) rfl rfl (by decide) (by decide)).2.2 (by decide)

/-- Counterexample to C9 as stated: the namespace holds `db: {host: h}` and the
secret document holds `db: {port: 5432}`.  The loader replaces the mapping
under `db`; the deep merge would have combined the two. -/
theorem loadEjsonFile_not_DeepMerge_counterexample :
    (loadEjsonFile exampleWorld nestedDecryptor
      (exampleSubst "/env/prod" [] [("ejson", .map [("db", .map [("host", .ofStr "h")])])])
      "/env/prod/secrets.ejson").Substitutions
      = [("ejson", .map [("db", .map [("port", .ofInt 5432)])])] ∧
    DeepMerge [("ejson", .map [("db", .map [("host", .ofStr "h")])])]
      [("ejson", .map [("db", .map [("port", .ofInt 5432)])])]
      = [("ejson", .map [("db", .map [("host", .ofStr "h"), ("port", .ofInt 5432)])])] ∧
    (loadEjsonFile exampleWorld nestedDecryptor
      (exampleSubst "/env/prod" [] [("ejson", .map [("db", .map [("host", .ofStr "h")])])])
      "/env/prod/secrets.ejson").Substitutions
      ≠ DeepMerge [("ejson", .map [("db", .map [("host", .ofStr "h")])])]
          [("ejson", .map (([("_public_key", .ofStr "k"),
            ("db", .map [("port", .ofInt 5432)])] : GoMap).filter
              (fun e => e.1 ≠ "_public_key")))] := by
  decide

/-! ## Order of enumeration -/

theorem mergeAt_cons (k : String) (cur : Option Value) (e : String × Value) (rest : GoMap) :
    mergeAt k cur (e :: rest) =
      mergeAt k
        (if e.1 = k then
          match cur with
          | some dstVal => some (DeepMerge.both dstVal e.2)
          | none => some e.2
        else cur) rest := rfl

/-- The entry of a key after a merge depends on the entry of that key before
the merge only. -/
theorem mapGet_DeepMerge_eq_mergeAt (k : String) (src : GoMap) : ∀ dst : GoMap,
    mapGet k (DeepMerge dst src) = mergeAt k (mapGet k dst) src := by
  induction src with
  | nil => intro dst; rfl
  | cons e rest ih =>
    intro dst
    obtain ⟨k2, v2⟩ := e
    rw [DeepMerge_cons, ih, DeepMerge_step_stored, mergeAt_cons]
    by_cases hk : k2 = k
    · subst hk
      rw [mapGet_mapSet_same]
      simp only [if_true]
      unfold DeepMerge.stored
      cases mapGet k2 dst <;> rfl
    · rw [mapGet_mapSet_ne hk]
      simp only [hk, if_false]

theorem mergeAt_of_not_mem {k : String} (src : GoMap) (h : k ∉ mapKeys src) :
    ∀ cur : Option Value, mergeAt k cur src = cur := by
  induction src with
  | nil => intro cur; rfl
  | cons e rest ih =>
    intro cur
    simp only [mapKeys, List.map_cons, List.mem_cons, not_or] at h
    have hk : ¬ e.1 = k := fun hc => h.1 hc.symm
    rw [mergeAt_cons, if_neg hk]
    exact ih h.2 cur

theorem mapGet_foldl_DeepMerge (k : String) (docs : List GoMap) : ∀ x y : GoMap,
    mapGet k x = mapGet k y →
      mapGet k (docs.foldl DeepMerge x) = mapGet k (docs.foldl DeepMerge y) := by
  induction docs with
  | nil => intro x y h; exact h
  | cons d rest ih =>
    intro x y h
    rw [List.foldl_cons, List.foldl_cons]
    apply ih
    rw [mapGet_DeepMerge_eq_mergeAt, mapGet_DeepMerge_eq_mergeAt, h]

theorem mapGet_foldl_DeepMerge_of_not_mem {k : String} (docs : List GoMap)
    (h : k ∉ docs.flatMap mapKeys) : ∀ x : GoMap,
    mapGet k (docs.foldl DeepMerge x) = mapGet k x := by
  induction docs with
  | nil => intro x; rfl
  | cons d rest ih =>
    intro x
    simp only [List.flatMap_cons, List.mem_append, not_or] at h
    rw [List.foldl_cons, ih h.2, mapGet_DeepMerge_of_not_mem d x h.1]

/-- Two directories whose override documents share no top-level key can be
loaded in either order. -/
theorem mergeOverrides_comm (w : World) (a b : String)
    (hdisj : ∀ k ∈ overrideKeys w a, k ∉ overrideKeys w b) (x : GoMap) :
    SameEntries (mergeOverrides w (mergeOverrides w x a) b)
      (mergeOverrides w (mergeOverrides w x b) a) := by
  intro k
  unfold mergeOverrides
  by_cases ha : k ∈ overrideKeys w a
  · have hb := hdisj k ha
    rw [mapGet_foldl_DeepMerge_of_not_mem _ hb]
    exact mapGet_foldl_DeepMerge k _ _ _ (mapGet_foldl_DeepMerge_of_not_mem _ hb x).symm
  · rw [mapGet_foldl_DeepMerge_of_not_mem _ ha]
    exact mapGet_foldl_DeepMerge k _ _ _ (mapGet_foldl_DeepMerge_of_not_mem _ ha x)

theorem loadSubstPaths_eq_foldl (w : World) (paths : List String) : ∀ s : Subst,
    loadSubstPaths w s paths =
      { s with Substitutions := paths.foldl (mergeOverrides w) s.Substitutions } := by
  induction paths with
  | nil => intro s; rfl
  | cons p rest ih =>
    intro s
    rw [loadSubstPaths_cons, ih, loadSubstFromPath_eq]
    rfl

theorem mergeOverrides_rangeKeys (w : World) (rangeKeys2 : List String → List String) :
    mergeOverrides { w with rangeKeys := rangeKeys2 } = mergeOverrides w := rfl

/-- Counterexample to C10 as stated: in the example tree the resource
directories `/env/prod/app` and `/env/prod/db` have equal depth and both set
`owner`.  Four paths are collected, and on so short a slice `sort.Slice` runs
its insertion sort, which keeps paths of equal depth in the order they were
enumerated.  Enumerating the collected paths in insertion order leaves
`owner: db`; enumerating them in reverse leaves `owner: app`. -/
theorem loadSubstFiles_enumeration_counterexample :
    (loadSubstFiles exampleWorld
      (exampleSubst "/env/prod" ["/env/prod/app", "/env/prod/db"] [])).map
        (fun r => (r.1.Substitutions, r.2))
      = some ([("env", .ofStr "prod"), ("replicas", .ofInt 3), ("owner", .ofStr "db")], none) ∧
    (loadSubstFiles exampleWorldReversed
      (exampleSubst "/env/prod" ["/env/prod/app", "/env/prod/db"] [])).map
        (fun r => (r.1.Substitutions, r.2))
      = some ([("env", .ofStr "prod"), ("replicas", .ofInt 3), ("owner", .ofStr "app")], none) ∧
    (loadSubstFiles exampleWorld
      (exampleSubst "/env/prod" ["/env/prod/app", "/env/prod/db"] [])).map
        (fun r => mapGet "owner" r.1.Substitutions)
      ≠ (loadSubstFiles exampleWorldReversed
      (exampleSubst "/env/prod" ["/env/prod/app", "/env/prod/db"] [])).map
        (fun r => mapGet "owner" r.1.Substitutions) := by
  decide

/-! ## Merge order -/

/-- C13: merge order is significant for `DeepMerge`: there are mappings A, B
and C for which `DeepMerge(DeepMerge(A, B), C)` differs from
`DeepMerge(A, DeepMerge(B, C))`; with A = `{a:{x:1}}`, B = `{a:1}` and
C = `{a:{y:2}}` the first is `{a:{y:2}}` and the second `{a:{x:1,y:2}}`. -/
theorem DeepMerge_not_assoc :
    DeepMerge (DeepMerge [("a", .map [("x", .ofInt 1)])] [("a", .ofInt 1)])
        [("a", .map [("y", .ofInt 2)])]
      = [("a", .map [("y", .ofInt 2)])] ∧
    DeepMerge [("a", .map [("x", .ofInt 1)])]
        (DeepMerge [("a", .ofInt 1)] [("a", .map [("y", .ofInt 2)])])
      = [("a", .map [("x", .ofInt 1), ("y", .ofInt 2)])] ∧
    ∃ A B C : GoMap, GoMap.WF A ∧ GoMap.WF B ∧ GoMap.WF C ∧
      ¬ SameEntries (DeepMerge (DeepMerge A B) C) (DeepMerge A (DeepMerge B C)) := by
  refine ⟨by decide, by decide, [("a", .map [("x", .ofInt 1)])], [("a", .ofInt 1)],
    [("a", .map [("y", .ofInt 2)])], by decide, by decide, by decide, ?_⟩
  intro h
  have ha := h "a"
  revert ha
  decide

/-! ## The ancestor chain of an absolute root -/

theorem Clean_backtrack_rooted (pre : List Char) :
    1 < (pre ++ ['/']).length → ∃ pre2, Clean.backtrack 1 (pre ++ ['/']) = pre2 ++ ['/'] := by
  induction pre with
  | nil => intro h; simp at h
  | cons c rest ih =>
    intro _
    rw [List.cons_append, Clean.backtrack]
    split
    · rename_i hc
      exact ih hc.1
    · exact ⟨rest, rfl⟩

/-- The output buffer of a rooted path keeps its leading separator. -/
theorem Clean_loop_rooted : ∀ (rest : List Char) (mode : Clean.Mode) (pre : List Char),
    ∃ pre2, Clean.loop true rest mode (pre ++ ['/']) 1 = pre2 ++ ['/'] := by
  intro rest
  induction rest with
  | nil => intro mode pre; exact ⟨pre, by cases mode <;> rfl⟩
  | cons c rest ih =>
    intro mode pre
    cases mode with
    | secondDot =>
      rw [Clean.loop]
      split
      · rename_i hlt
        obtain ⟨pre2, hb⟩ := Clean_backtrack_rooted pre hlt
        rw [hb]
        exact ih _ pre2
      · simp only [if_true]
        exact ih _ pre
    | inElem =>
      rw [Clean.loop]
      split
      · exact ih _ pre
      · exact ih _ (c :: pre)
    | elemStart =>
      rw [Clean.loop]
      split
      · exact ih _ pre
      · split
        · exact ih _ pre
        · split
          · exact ih _ pre
          · have hsep : ∃ pre3, Clean.addSep true (pre ++ ['/']) = pre3 ++ ['/'] := by
              unfold Clean.addSep
              split
              · exact ⟨'/' :: pre, rfl⟩
              · exact ⟨pre, rfl⟩
            obtain ⟨pre3, h3⟩ := hsep
            rw [h3]
            exact ih _ (c :: pre3)

theorem Clean_chars_rooted (rest : List Char) :
    ∃ tail, Clean.chars ('/' :: rest) = '/' :: tail := by
  obtain ⟨pre2, hb⟩ := Clean_loop_rooted rest .elemStart []
  have hbuf : Clean.buffer ('/' :: rest) = pre2 ++ ['/'] := by
    simp only [Clean.buffer, if_true]
    exact hb
  unfold Clean.chars
  rw [hbuf]
  simp

theorem Dir_upToLastSep_rooted (rest : List Char) :
    ∃ tail, Dir.upToLastSep ('/' :: rest) = '/' :: tail := by
  unfold Dir.upToLastSep
  have hkey : ∀ l : List Char, ∃ front,
      List.dropWhile (fun c => decide (c ≠ '/')) (l ++ ['/']) = front ++ ['/'] := by
    intro l
    induction l with
    | nil => exact ⟨[], by simp [List.dropWhile]⟩
    | cons c l ih =>
      rw [List.cons_append, List.dropWhile_cons]
      split
      · exact ih
      · exact ⟨c :: l, rfl⟩
  obtain ⟨front, hf⟩ := hkey rest.reverse
  rw [List.reverse_cons, hf]
  exact ⟨front.reverse, by simp⟩

/-- The parent of an absolute path is absolute. -/
theorem IsAbs_Dir {path : String} (h : IsAbs path = true) : IsAbs (Dir path) = true := by
  unfold IsAbs at h
  cases hd : path.data with
  | nil => rw [hd] at h; simp at h
  | cons c rest =>
    rw [hd] at h
    simp only [List.head?_cons, Option.some.injEq, decide_eq_true_eq] at h
    subst h
    obtain ⟨t1, h1⟩ := Dir_upToLastSep_rooted rest
    obtain ⟨t2, h2⟩ := Clean_chars_rooted t1
    unfold IsAbs Dir
    rw [hd, h1, h2]
    simp

theorem Dir_sep : Dir "/" = "/" := by decide

theorem iterate_Dir_sep (k : Nat) : Dir^[k] "/" = "/" :=
  Function.iterate_fixed Dir_sep k

/-- From an absolute directory other than `/`, the ancestor loop never adds
`/`, stops below it, and visits every `Dir` iterate that is not `/`. -/
theorem ancestorChain_abs : ∀ (fuel : Nat) (currentPath : String) (chain : List String),
    IsAbs currentPath = true → currentPath ≠ "/" →
    ancestorChain fuel currentPath = some chain →
      "/" ∉ chain ∧ (∃ last, chain.getLast? = some last ∧ Dir last = "/") ∧
      ∀ k, Dir^[k] currentPath ∈ chain ∨ Dir^[k] currentPath = "/" := by
  intro fuel
  induction fuel with
  | zero => intro currentPath chain _ _ h; simp [ancestorChain] at h
  | succ n ih =>
    intro currentPath chain habs hne h
    have hpabs := IsAbs_Dir habs
    have hndot : Dir currentPath ≠ "." := by
      intro hc
      rw [hc] at hpabs
      revert hpabs
      decide
    rw [ancestorChain] at h
    split at h
    · rename_i hstop
      have hparent : Dir currentPath = "/" := by
        rcases hstop with hs | hs | hs
        · rcases Dir_shorter currentPath with hd | hd | hd
          · exact absurd hd hndot
          · exact hd
          · rw [hs] at hd; exact absurd hd (lt_irrefl _)
        · exact hs
        · exact absurd hs hndot
      have hchain : chain = [currentPath] := (Option.some.inj h).symm
      subst hchain
      refine ⟨by simpa using Ne.symm hne, ⟨currentPath, rfl, hparent⟩, fun k => ?_⟩
      cases k with
      | zero => left; simp
      | succ k =>
        right
        rw [Function.iterate_succ_apply, hparent, iterate_Dir_sep]
    · rename_i hstop
      simp only [not_or] at hstop
      cases htail : ancestorChain n (Dir currentPath) with
      | none => rw [htail] at h; cases h
      | some tail =>
        rw [htail] at h
        have hchain : chain = currentPath :: tail := (Option.some.inj h).symm
        subst hchain
        obtain ⟨hnot, ⟨last, hlast, hdl⟩, hiter⟩ := ih _ tail hpabs hstop.2.1 htail
        refine ⟨?_, ⟨last, ?_, hdl⟩, fun k => ?_⟩
        · simp only [List.mem_cons, not_or]
          exact ⟨Ne.symm hne, hnot⟩
        · cases tail with
          | nil => simp at hlast
          | cons t ts => rw [List.getLast?_cons_cons]; exact hlast
        · cases k with
          | zero => left; simp
          | succ k =>
            rw [Function.iterate_succ_apply]
            rcases hiter k with hk | hk
            · left; exact List.mem_cons_of_mem _ hk
            · right; exact hk

/-- C14: for every absolute root path other than `/` (cleaned or not), the
ancestor loop of `loadSubstFiles` yields root followed by its successive
parents and stops at the entry whose parent is `/`: every `filepath.Dir`
iterate of root is an entry of the chain or is `/`, and `/` is never an entry,
so with no resource paths the directory `/` is never loaded.  For root
`/a/b/c` the chain is exactly `/a/b/c`, `/a/b`, `/a`. -/
theorem ancestorChain_excludes_fs_root :
    (∀ root : String, IsAbs root = true → root ≠ "/" →
      ∃ chain : List String,
        ancestorChain (root.length + 1) root = some chain ∧
        chain.head? = some root ∧
        chain.Chain' (fun a b => b = Dir a) ∧
        "/" ∉ chain ∧
        (∃ last, chain.getLast? = some last ∧ Dir last = "/") ∧
        (∀ k, Dir^[k] root ∈ chain ∨ Dir^[k] root = "/") ∧
        (∀ w : World, (∀ keys : List String, keys.Nodup → (w.rangeKeys keys).Perm keys) →
          ∀ paths, loadOrder w root [] = some paths → "/" ∉ paths)) ∧
    ancestorChain ("/a/b/c".length + 1) "/a/b/c" = some ["/a/b/c", "/a/b", "/a"] := by
  refine ⟨?_, by decide⟩
  intro root habs hne
  obtain ⟨chain, hrun, hhead, hchain, -, -⟩ :=
    ancestorChain_spec (root.length + 1) root (Nat.lt_succ_self _)
  obtain ⟨hnot, hlast, hiter⟩ := ancestorChain_abs _ root chain habs hne hrun
  refine ⟨chain, hrun, hhead, hchain.imp (fun {_ _} h => h.1), hnot, hlast, hiter, ?_⟩
  intro w hrange paths hpaths
  obtain ⟨chain2, hrun2, horder, hnd, hmem⟩ := loadOrder_collect w root []
  have hc : chain2 = chain := Option.some.inj (hrun2.symm.trans hrun)
  subst hc
  have hp : paths = sortSlice depthLess
      (w.rangeKeys (addResourcePaths w (chain2.foldl setAdd []) [])) :=
    Option.some.inj (hpaths.symm.trans horder)
  intro hin
  rw [hp] at hin
  have hin2 := ((sortSlice_perm _).trans (hrange _ hnd)).mem_iff.1 hin
  rcases (hmem "/").1 hin2 with h | h
  · exact hnot h
  · simp at h

/-- Witness for C14: the root `/env/prod` of the example tree. -/
theorem ancestorChain_excludes_fs_root_witness :
    ∃ chain : List String,
      ancestorChain ("/env/prod".length + 1) "/env/prod" = some chain ∧
      chain.head? = some "/env/prod" ∧
      chain.Chain' (fun a b => b = Dir a) ∧
      "/" ∉ chain ∧
      (∃ last, chain.getLast? = some last ∧ Dir last = "/") ∧
      (∀ k, Dir^[k] "/env/prod" ∈ chain ∨ Dir^[k] "/env/prod" = "/") ∧
      (∀ w : World, (∀ keys : List String, keys.Nodup → (w.rangeKeys keys).Perm keys) →
        ∀ paths, loadOrder w "/env/prod" [] = some paths → "/" ∉ paths) :=
  ancestorChain_excludes_fs_root.1 "/env/prod" (by decide) (by decide)

/-! ## Failures while loading are skipped -/

theorem filterMap_substEntry_of_none (X : Option GoMap) (entries : List DirEntry)
    (h : ∀ e ∈ entries, isSubstEntry e = false) :
    entries.filterMap (fun e => if isSubstEntry e = true then X else none) = [] := by
  induction entries with
  | nil => rfl
  | cons e rest ih =>
    rw [List.filterMap_cons]
    simp only [h e (List.mem_cons_self _ _), Bool.false_eq_true, if_false]
    exact ih (fun x hx => h x (List.mem_cons_of_mem _ hx))

/-- In a directory whose entry names are distinct, at most one entry is the
override file. -/
theorem filterMap_substEntry (X : Option GoMap) (entries : List DirEntry)
    (hnames : (entries.map DirEntry.name).Nodup) :
    entries.filterMap (fun e => if isSubstEntry e = true then X else none) =
      if entries.any isSubstEntry = true then X.toList else [] := by
  induction entries with
  | nil => rfl
  | cons e rest ih =>
    rw [List.map_cons, List.nodup_cons] at hnames
    rw [List.filterMap_cons, List.any_cons]
    by_cases he : isSubstEntry e = true
    · have hname : e.name = "subst.yaml" := by
        simp only [isSubstEntry, Bool.and_eq_true, decide_eq_true_eq] at he
        exact he.2
      have hrest : ∀ x ∈ rest, isSubstEntry x = false := by
        intro x hx
        by_contra hc
        have hxn : x.name = "subst.yaml" := by
          simp only [isSubstEntry, Bool.not_eq_false, Bool.and_eq_true,
            decide_eq_true_eq] at hc
          exact hc.2
        exact hnames.1 (by rw [hname, ← hxn]; exact List.mem_map_of_mem _ hx)
      simp only [he, if_true, Bool.true_or]
      rw [filterMap_substEntry_of_none X rest hrest]
      cases X <;> rfl
    · simp only [he, if_false, Bool.false_or]
      rw [ih hnames.2]
      simp only [Bool.not_eq_true] at he
      simp [he]

theorem overrideDocs_eq_filterMap (w : World) (basePath : String) (entries : List DirEntry)
    (h : w.readDir basePath = some entries) :
    overrideDocs w basePath =
      entries.filterMap (fun e =>
        if isSubstEntry e = true then
          (match loadSubstFile w (Join [basePath, "subst.yaml"]) with
            | .error _ => none
            | .ok substData => some substData)
        else none) := by
  unfold overrideDocs
  rw [h]
  apply List.filterMap_congr
  intro e _
  unfold isSubstEntry
  by_cases hd : e.isDir = true
  · simp [hd]
  · by_cases hn : e.name = "subst.yaml"
    · simp [hd, hn]
    · simp [hd, hn]

/-- The documents merged for a directory are the document of its override
file when that file is well formed, and none otherwise. -/
theorem overrideDocs_eq_doc (w : World) (basePath : String)
    (hnames : ∀ entries, w.readDir basePath = some entries →
      (entries.map DirEntry.name).Nodup) :
    overrideDocs w basePath = (overrideFileOf w basePath).doc?.toList := by
  cases hdir : w.readDir basePath with
  | none =>
    unfold overrideDocs overrideFileOf
    rw [hdir]
    rfl
  | some entries =>
    rw [overrideDocs_eq_filterMap w basePath entries hdir,
      filterMap_substEntry _ entries (hnames entries hdir)]
    unfold overrideFileOf loadSubstFile
    rw [hdir]
    by_cases hany : entries.any isSubstEntry = true
    · simp only [hany, if_true]
      cases w.readFile (Join [basePath, "subst.yaml"]) with
      | none => rfl
      | some content =>
        simp only
        cases w.yamlUnmarshalMap content with
        | none => rfl
        | some doc => rfl
    · simp only [hany, if_false]
      rfl

theorem foldl_mergeOverrides_eq (w : World) (paths : List String)
    (hnames : ∀ dir entries, w.readDir dir = some entries →
      (entries.map DirEntry.name).Nodup) : ∀ x : GoMap,
    paths.foldl (mergeOverrides w) x =
      (paths.filterMap (fun dir => (overrideFileOf w dir).doc?)).foldl DeepMerge x := by
  induction paths with
  | nil => intro x; rfl
  | cons p rest ih =>
    intro x
    rw [List.foldl_cons, ih, List.filterMap_cons]
    unfold mergeOverrides
    rw [overrideDocs_eq_doc w p (hnames p)]
    cases (overrideFileOf w p).doc? with
    | none => rfl
    | some doc => rfl

/-- C11: the Override Loader never fails.  For every world, in which the
override file of each directory is missing, unreadable, unparseable as a
mapping or well formed, and every list of directories in processing order, the
loading loop leaves the context equal to the left fold of `DeepMerge` over the
starting context and the well-formed documents only, in that order, so a
failing directory contributes nothing and the directories after it are still
merged; `loadSubstFiles` finishes, runs this loop over its load order and
returns no error. -/
theorem loadSubstFiles_never_fails (w : World) (s : Subst)
    (hnames : ∀ dir entries, w.readDir dir = some entries →
      (entries.map DirEntry.name).Nodup) :
    (∀ paths : List String,
      (loadSubstPaths w s paths).Substitutions =
        (paths.filterMap (fun dir => (overrideFileOf w dir).doc?)).foldl DeepMerge
          s.Substitutions) ∧
    (∀ (before after : List String) (dir : String), (overrideFileOf w dir).doc? = none →
      (loadSubstPaths w s (before ++ dir :: after)).Substitutions =
        (loadSubstPaths w s (before ++ after)).Substitutions) ∧
    ∃ paths : List String,
      loadOrder w s.Kustomization.Root s.Kustomization.GetResourcePaths = some paths ∧
      loadSubstFiles w s = some (loadSubstPaths w s paths, none) ∧
      (loadSubstPaths w s paths).Substitutions =
        (paths.filterMap (fun dir => (overrideFileOf w dir).doc?)).foldl DeepMerge
          s.Substitutions := by
  have hfold : ∀ paths : List String,
      (loadSubstPaths w s paths).Substitutions =
        (paths.filterMap (fun dir => (overrideFileOf w dir).doc?)).foldl DeepMerge
          s.Substitutions := by
    intro paths
    rw [loadSubstPaths_eq_foldl]
    exact foldl_mergeOverrides_eq w paths hnames s.Substitutions
  refine ⟨hfold, ?_, ?_⟩
  · intro before after dir hdoc
    rw [hfold, hfold, List.filterMap_append, List.filterMap_append, List.filterMap_cons, hdoc]
  · obtain ⟨chain, -, horder, -, -⟩ :=
      loadOrder_collect w s.Kustomization.Root s.Kustomization.GetResourcePaths
    refine ⟨_, horder, ?_, hfold _⟩
    unfold loadSubstFiles
    rw [horder]

theorem exampleWorld_names_nodup : ∀ dir entries, exampleWorld.readDir dir = some entries →
    (entries.map DirEntry.name).Nodup := by
  intro dir entries h
  have h2 : exampleReadDir dir = some entries := h
  unfold exampleReadDir at h2
  split at h2 <;> first
    | (injection h2 with h3; subst h3; decide)
    | cases h2

/-- Witness for C11: of the directories `/srv`, `/srv/bad` (not a mapping),
`/srv/locked` (not readable), `/nowhere` (no such directory) and `/srv/app`,
only the first and the last contribute. -/
theorem loadSubstFiles_never_fails_witness :
    overrideFileOf exampleWorld "/srv/bad" = .unparseable ∧
    overrideFileOf exampleWorld "/srv/locked" = .unreadable ∧
    overrideFileOf exampleWorld "/nowhere" = .missing ∧
    (loadSubstPaths exampleWorld (exampleSubst "/srv/app" [] [])
      ["/srv", "/srv/bad", "/srv/locked", "/nowhere", "/srv/app"]).Substitutions
      = DeepMerge (DeepMerge [] [("a", .map [("x", .ofInt 1)])]) [("a", .ofInt 5)] :=
  ⟨by decide, by decide, by decide,
    ((loadSubstFiles_never_fails exampleWorld (exampleSubst "/srv/app" [] [])
      exampleWorld_names_nodup).1
      ["/srv", "/srv/bad", "/srv/locked", "/nowhere", "/srv/app"]).trans (by decide)⟩

theorem loadEjsonFile_of_not_decryptsOk (w : World) (d : Decryptor) (s : Subst)
    (ejsonFile : String) (h : decryptsOk w d ejsonFile = false) :
    loadEjsonFile w d s ejsonFile = s := by
  unfold decryptsOk at h
  unfold loadEjsonFile
  cases hr : w.readFile ejsonFile with
  | none => rfl
  | some content =>
    rw [hr] at h
    simp only at h ⊢
    cases he : d.IsEncrypted content with
    | error _ => rfl
    | ok b =>
      cases b with
      | false => rfl
      | true =>
        rw [he] at h
        simp only at h ⊢
        cases hd : d.Decrypt content with
        | error _ => rfl
        | ok D => rw [hd] at h; cases h

theorem foldl_loadEjsonFile_filter (w : World) (d : Decryptor) (ejsonFiles : List String) :
    ∀ s : Subst, ejsonFiles.foldl (loadEjsonFile w d) s =
      (ejsonFiles.filter (decryptsOk w d)).foldl (loadEjsonFile w d) s := by
  induction ejsonFiles with
  | nil => intro s; rfl
  | cons f rest ih =>
    intro s
    rw [List.foldl_cons, List.filter_cons]
    cases hf : decryptsOk w d f with
    | true => simp only [if_true, List.foldl_cons]; exact ih _
    | false =>
      simp only [Bool.false_eq_true, if_false]
      rw [loadEjsonFile_of_not_decryptsOk w d s f hf]
      exact ih s

/-- C12: for every list of secret files, a file for which `IsEncrypted`
returns an error or false, or for which `Decrypt` fails, leaves the processor
and its substitution context unchanged; the files after it are still
processed, so the result of the loop is the result of processing only the
files that are read, encrypted and decrypted successfully, in the same order;
and `loadEjsonFiles` returns that result and no error. -/
theorem loadEjsonFiles_skips_failures (w : World) (d : Decryptor) :
    (∀ (s : Subst) (file content : String), w.readFile file = some content →
      ((∃ e, d.IsEncrypted content = .error e) ∨ d.IsEncrypted content = .ok false ∨
        (∃ e, d.Decrypt content = .error e)) →
      decryptsOk w d file = false ∧ loadEjsonFile w d s file = s) ∧
    (∀ (s : Subst) (before after : List String) (file : String),
      decryptsOk w d file = false →
      (before ++ file :: after).foldl (loadEjsonFile w d) s =
        (before ++ after).foldl (loadEjsonFile w d) s) ∧
    (∀ (s : Subst) (files : List String),
      files.foldl (loadEjsonFile w d) s =
        (files.filter (decryptsOk w d)).foldl (loadEjsonFile w d) s) ∧
    (∀ (s : Subst) (files : List String), s.EjsonDecryptor = some d →
      findEjsonFiles w s = (files, none) →
      loadEjsonFiles w s = ((files.filter (decryptsOk w d)).foldl (loadEjsonFile w d) s, none)) := by
  refine ⟨?_, ?_, foldl_loadEjsonFile_filter w d |> fun h s files => h files s, ?_⟩
  · intro s file content hread hfail
    have hnot : decryptsOk w d file = false := by
      unfold decryptsOk
      rw [hread]
      rcases hfail with ⟨e, he⟩ | he | ⟨e, he⟩
      · simp only [he]
      · simp only [he]
      · cases hi : d.IsEncrypted content with
        | error _ => simp only [hi]
        | ok b =>
          cases b with
          | false => simp only [hi]
          | true => simp only [hi, he]
    exact ⟨hnot, loadEjsonFile_of_not_decryptsOk w d s file hnot⟩
  · intro s before after file hnot
    rw [List.foldl_append, List.foldl_append, List.foldl_cons,
      loadEjsonFile_of_not_decryptsOk w d _ file hnot]
  · intro s files hdec hfind
    unfold loadEjsonFiles
    rw [hdec]
    simp only [hfind]
    rw [foldl_loadEjsonFile_filter]

/-- Witness for C12: of an override file (not encrypted), the secret file of
the example tree and a file that does not exist, only the secret file is
processed; with a decryptor whose check fails, the secret file is skipped. -/
theorem loadEjsonFiles_skips_failures_witness :
    (["/env/prod/subst.yaml", "/env/prod/secrets.ejson", "/nowhere.ejson"].foldl
        (loadEjsonFile exampleWorld exampleDecryptor)
        (exampleSubst "/env/prod" [] [])).Substitutions
      = [("ejson", .map [("token", .ofStr "t")])] ∧
    (loadEjsonFile exampleWorld failingDecryptor
        (exampleSubst "/env/prod" [] [("env", .ofStr "prod")])
        "/env/prod/secrets.ejson").Substitutions
      = [("env", .ofStr "prod")] :=
  ⟨(congrArg Subst.Substitutions
      ((loadEjsonFiles_skips_failures exampleWorld exampleDecryptor).2.2.1
        (exampleSubst "/env/prod" [] [])
        ["/env/prod/subst.yaml", "/env/prod/secrets.ejson", "/nowhere.ejson"])).trans
      (by decide),
    congrArg Subst.Substitutions
      ((loadEjsonFiles_skips_failures exampleWorld failingDecryptor).1
        (exampleSubst "/env/prod" [] [("env", .ofStr "prod")])
        "/env/prod/secrets.ejson" "EJ[_public_key: k, token: t]" (by decide)
        (Or.inl ⟨"unreadable key", rfl⟩)).2⟩

/-! ## Contexts as Go maps: equality without entry order -/

theorem getPath_eq_getPathIn (m : GoMap) (k : String) (q : List String) :
    getPath m (k :: q) = getPathIn (mapGet k m) q := by
  cases q with
  | nil =>
    show mapGet k m = getPathIn (mapGet k m) []
    cases mapGet k m with
    | none => rfl
    | some v => cases v <;> rfl
  | cons k2 r =>
    rw [getPath_cons_cons]
    cases mapGet k m with
    | none => rfl
    | some v => cases v <;> rfl

theorem SameContent.refl (a : GoMap) : SameContent a a := fun _ => rfl

theorem SameContent.symm {a b : GoMap} (h : SameContent a b) : SameContent b a :=
  fun path => (h path).symm

theorem SameContent.trans {a b c : GoMap} (h1 : SameContent a b) (h2 : SameContent b c) :
    SameContent a c :=
  fun path => (h1 path).trans (h2 path)

theorem SameEntries.sameContent {a b : GoMap} (h : SameEntries a b) : SameContent a b := by
  intro path
  cases path with
  | nil => rfl
  | cons k q => rw [getPath_eq_getPathIn, getPath_eq_getPathIn, h k]

theorem sameContent_inner {a b am bm : GoMap} {k : String} (h : SameContent a b)
    (ha : mapGet k a = some (.map am)) (hb : mapGet k b = some (.map bm)) :
    SameContent am bm := by
  intro path
  cases path with
  | nil => rfl
  | cons k2 r =>
    have := h (k :: k2 :: r)
    rw [getPath_cons_of_map ha (by simp), getPath_cons_of_map hb (by simp)] at this
    exact this

theorem DeepMerge_stored_of_not_map (dst : GoMap) (key : String) {srcVal : Value}
    (h : srcVal.isMap = false) : DeepMerge.stored dst key srcVal = srcVal := by
  cases hd : mapGet key dst with
  | none => exact DeepMerge_stored_of_none hd srcVal
  | some dv =>
    rw [DeepMerge_stored_of_some hd]
    exact DeepMerge_both_of_not_maps (Or.inr h)

theorem DeepMerge_stored_congr {dst dst2 : GoMap} {key : String}
    (h : mapGet key dst = mapGet key dst2) (srcVal : Value) :
    DeepMerge.stored dst key srcVal = DeepMerge.stored dst2 key srcVal := by
  unfold DeepMerge.stored
  rw [h]

/-- The entry of a key after merging a document with unique keys. -/
theorem mapGet_DeepMerge (k : String) (dst : GoMap) {src : GoMap} (hnd : NodupKeys src) :
    mapGet k (DeepMerge dst src) =
      match mapGet k src with
      | some v => some (DeepMerge.stored dst k v)
      | none => mapGet k dst := by
  cases hs : mapGet k src with
  | none => exact mapGet_DeepMerge_of_not_mem src dst (not_mem_mapKeys_of_mapGet_none hs)
  | some v => exact mapGet_DeepMerge_of_mem src dst hnd hs

/-- Merging a document into two contexts that are the same Go map gives two
contexts that are the same Go map. -/
theorem sameContent_DeepMerge_path : ∀ (path : List String) (x y d : GoMap),
    GoMap.WF d → SameContent x y →
      (getPath (DeepMerge x d) path).map Value.shape
        = (getPath (DeepMerge y d) path).map Value.shape := by
  intro path
  induction path with
  | nil => intro x y d _ _; rfl
  | cons k q ih =>
    intro x y d hwf hxy
    have h0 : (mapGet k x).map Value.shape = (mapGet k y).map Value.shape := hxy [k]
    rw [getPath_eq_getPathIn, getPath_eq_getPathIn, mapGet_DeepMerge k x hwf.nodupKeys,
      mapGet_DeepMerge k y hwf.nodupKeys]
    cases hd : mapGet k d with
    | none =>
      simp only
      rw [← getPath_eq_getPathIn, ← getPath_eq_getPathIn]
      exact hxy (k :: q)
    | some v =>
      simp only
      cases v with
      | scalar c =>
        rw [@DeepMerge_stored_of_not_map x k (.scalar c) rfl,
          @DeepMerge_stored_of_not_map y k (.scalar c) rfl]
      | seq l =>
        rw [@DeepMerge_stored_of_not_map x k (.seq l) rfl,
          @DeepMerge_stored_of_not_map y k (.seq l) rfl]
      | map sm =>
        cases hx : mapGet k x with
        | none =>
          rw [hx] at h0
          cases hy : mapGet k y with
          | none => rw [DeepMerge_stored_of_none hx, DeepMerge_stored_of_none hy]
          | some yv => rw [hy] at h0; cases h0
        | some xv =>
          rw [hx] at h0
          cases hy : mapGet k y with
          | none => rw [hy] at h0; cases h0
          | some yv =>
            rw [hy] at h0
            simp only [Option.map_some', Option.some.injEq] at h0
            rw [DeepMerge_stored_of_some hx, DeepMerge_stored_of_some hy]
            cases xv with
            | scalar c =>
              cases yv with
              | scalar c2 =>
                rw [@DeepMerge_both_of_not_maps (.scalar c) _ (Or.inl rfl),
                  @DeepMerge_both_of_not_maps (.scalar c2) _ (Or.inl rfl)]
              | seq l2 => cases h0
              | map ym => cases h0
            | seq l =>
              cases yv with
              | scalar c2 => cases h0
              | seq l2 =>
                rw [@DeepMerge_both_of_not_maps (.seq l) _ (Or.inl rfl),
                  @DeepMerge_both_of_not_maps (.seq l2) _ (Or.inl rfl)]
              | map ym => cases h0
            | map xm =>
              cases yv with
              | scalar c2 => cases h0
              | seq l2 => cases h0
              | map ym =>
                rw [DeepMerge_both_maps, DeepMerge_both_maps]
                cases q with
                | nil => rfl
                | cons k2 r =>
                  exact ih xm ym sm (hwf.inner hd) (sameContent_inner hxy hx hy)

theorem DeepMerge_append_of_disjoint (m : GoMap) : ∀ acc : GoMap, NodupKeys m →
    (∀ k ∈ mapKeys m, k ∉ mapKeys acc) → DeepMerge acc m = acc ++ m := by
  induction m with
  | nil => intro acc _ _; simp [DeepMerge_nil]
  | cons e rest ih =>
    intro acc hnd hdisj
    obtain ⟨k, v⟩ := e
    have hnd2 : k ∉ mapKeys rest ∧ NodupKeys rest := by
      simpa [NodupKeys, mapKeys] using hnd
    have hk : k ∉ mapKeys acc := hdisj k (List.mem_cons_self _ _)
    rw [DeepMerge_cons, DeepMerge_step_stored,
      DeepMerge_stored_of_none (mapGet_eq_none_of_not_mem hk), mapSet_of_not_mem v hk, ih _ hnd2.2]
    · simp
    · intro k2 hk2
      have hne : k2 ≠ k := fun hc => hnd2.1 (hc ▸ hk2)
      have hacc := hdisj k2 (List.mem_cons_of_mem _ hk2)
      simp only [mapKeys, List.map_append, List.map_cons, List.map_nil, List.mem_append,
        List.mem_singleton, not_or]
      exact ⟨hacc, hne⟩

theorem DeepMerge_nil_left {m : GoMap} (h : NodupKeys m) : DeepMerge [] m = m := by
  rw [DeepMerge_append_of_disjoint m [] h (fun k _ => by simp [mapKeys])]
  rfl

theorem compatibleAt_of_mapGet {k : String} {va : Value} (A B : GoMap)
    (h : compatibleEntries A B = true) (ha : mapGet k A = some va) :
    compatibleAt va (mapGet k B) = true := by
  induction A with
  | nil => simp [mapGet] at ha
  | cons e rest ih =>
    obtain ⟨k2, v2⟩ := e
    rw [compatibleEntries, Bool.and_eq_true] at h
    by_cases hk : k2 = k
    · subst hk
      simp only [mapGet, if_true, Option.some.injEq] at ha
      subst ha
      exact h.1
    · simp only [mapGet, hk, if_false] at ha
      exact ih h.2 ha

theorem compatibleAt_some {va vb : Value} (h : compatibleAt va (some vb) = true) :
    ∃ am bm, va = .map am ∧ vb = .map bm ∧ compatibleEntries am bm = true := by
  cases va with
  | scalar c => simp [compatibleAt] at h
  | seq l => simp [compatibleAt] at h
  | map am =>
    cases vb with
    | scalar c => simp [compatibleAt] at h
    | seq l => simp [compatibleAt] at h
    | map bm =>
      rw [compatibleAt] at h
      exact ⟨am, bm, rfl, rfl, h⟩

/-- Two compatible documents can be merged in either order: the contexts that
result are the same Go map. -/
theorem commute_DeepMerge_path : ∀ (path : List String) (x A B : GoMap),
    GoMap.WF A → GoMap.WF B → compatibleEntries A B = true →
      (getPath (DeepMerge (DeepMerge x A) B) path).map Value.shape
        = (getPath (DeepMerge (DeepMerge x B) A) path).map Value.shape := by
  intro path
  induction path with
  | nil => intro x A B _ _ _; rfl
  | cons k q ih =>
    intro x A B hA hB hc
    rw [getPath_eq_getPathIn, getPath_eq_getPathIn]
    have hL := mapGet_DeepMerge k (DeepMerge x A) hB.nodupKeys
    have hR := mapGet_DeepMerge k (DeepMerge x B) hA.nodupKeys
    have hxA := mapGet_DeepMerge k x hA.nodupKeys
    have hxB := mapGet_DeepMerge k x hB.nodupKeys
    cases ha : mapGet k A with
    | none =>
      rw [ha] at hxA hR
      simp only at hxA hR
      cases hb : mapGet k B with
      | none =>
        rw [hb] at hxB hL
        simp only at hxB hL
        rw [hL, hR, hxA, hxB]
      | some vb =>
        rw [hb] at hxB hL
        simp only at hxB hL
        rw [hL, hR, hxB, DeepMerge_stored_congr hxA vb]
    | some va =>
      rw [ha] at hxA hR
      simp only at hxA hR
      cases hb : mapGet k B with
      | none =>
        rw [hb] at hxB hL
        simp only at hxB hL
        rw [hL, hR, hxA, DeepMerge_stored_congr hxB va]
      | some vb =>
        rw [hb] at hxB hL
        simp only at hxB hL
        rw [hL, hR]
        have hat := compatibleAt_of_mapGet A B hc ha
        rw [hb] at hat
        obtain ⟨am, bm, hva, hvb, hcm⟩ := compatibleAt_some hat
        subst hva
        subst hvb
        rw [DeepMerge_stored_of_some hxA, DeepMerge_stored_of_some hxB]
        have hwfa : GoMap.WF am := hA.inner ha
        have hwfb : GoMap.WF bm := hB.inner hb
        have hleft : ∃ xm, DeepMerge.stored x k (.map am) = .map (DeepMerge xm am) ∧
            DeepMerge.stored x k (.map bm) = .map (DeepMerge xm bm) := by
          cases hx : mapGet k x with
          | none =>
            refine ⟨[], ?_, ?_⟩
            · rw [DeepMerge_stored_of_none hx, DeepMerge_nil_left hwfa.nodupKeys]
            · rw [DeepMerge_stored_of_none hx, DeepMerge_nil_left hwfb.nodupKeys]
          | some xv =>
            rw [DeepMerge_stored_of_some hx, DeepMerge_stored_of_some hx]
            cases xv with
            | map xm => exact ⟨xm, rfl, rfl⟩
            | scalar c =>
              refine ⟨[], ?_, ?_⟩
              · rw [@DeepMerge_both_of_not_maps (.scalar c) _ (Or.inl rfl),
                  DeepMerge_nil_left hwfa.nodupKeys]
              · rw [@DeepMerge_both_of_not_maps (.scalar c) _ (Or.inl rfl),
                  DeepMerge_nil_left hwfb.nodupKeys]
            | seq l =>
              refine ⟨[], ?_, ?_⟩
              · rw [@DeepMerge_both_of_not_maps (.seq l) _ (Or.inl rfl),
                  DeepMerge_nil_left hwfa.nodupKeys]
              · rw [@DeepMerge_both_of_not_maps (.seq l) _ (Or.inl rfl),
                  DeepMerge_nil_left hwfb.nodupKeys]
        obtain ⟨xm, h1, h2⟩ := hleft
        rw [h1, h2, DeepMerge_both_maps, DeepMerge_both_maps]
        cases q with
        | nil => rfl
        | cons k2 r => exact ih xm am bm hwfa hwfb hcm

/-- Two directories holding one override document each commute when the two
documents are compatible. -/
theorem commute_of_compatible (w : World) {a b : String} {A B : GoMap}
    (ha : overrideDocs w a = [A]) (hb : overrideDocs w b = [B])
    (hA : GoMap.WF A) (hB : GoMap.WF B) (hc : compatibleEntries A B = true) :
    Commute w a b := by
  intro x path
  unfold mergeOverrides
  rw [ha, hb]
  exact commute_DeepMerge_path path x A B hA hB hc

theorem sameContent_foldl_DeepMerge (docs : List GoMap) :
    (∀ doc ∈ docs, GoMap.WF doc) → ∀ x y : GoMap, SameContent x y →
      SameContent (docs.foldl DeepMerge x) (docs.foldl DeepMerge y) := by
  induction docs with
  | nil => intro _ x y h; exact h
  | cons d rest ih =>
    intro hwf x y h
    rw [List.foldl_cons, List.foldl_cons]
    exact ih (fun doc hd => hwf doc (List.mem_cons_of_mem _ hd)) _ _
      (fun path => sameContent_DeepMerge_path path x y d (hwf d (List.mem_cons_self _ _)) h)

theorem sameContent_foldl_mergeOverrides (w : World) (paths : List String) :
    (∀ dir ∈ paths, ∀ doc ∈ overrideDocs w dir, GoMap.WF doc) → ∀ x y : GoMap,
      SameContent x y →
      SameContent (paths.foldl (mergeOverrides w) x) (paths.foldl (mergeOverrides w) y) := by
  induction paths with
  | nil => intro _ x y h; exact h
  | cons p rest ih =>
    intro hwf x y h
    rw [List.foldl_cons, List.foldl_cons]
    exact ih (fun dir hd => hwf dir (List.mem_cons_of_mem _ hd)) _ _
      (sameContent_foldl_DeepMerge _ (hwf p (List.mem_cons_self _ _)) x y h)

/-- A directory that commutes with every directory of a block can be loaded
after the block instead of before it. -/
theorem foldl_mergeOverrides_move_commute (w : World) (a : String) (block : List String) :
    (∀ dir ∈ block, ∀ doc ∈ overrideDocs w dir, GoMap.WF doc) →
    (∀ b ∈ block, Commute w a b) →
    ∀ x : GoMap, SameContent (block.foldl (mergeOverrides w) (mergeOverrides w x a))
      (mergeOverrides w (block.foldl (mergeOverrides w) x) a) := by
  induction block with
  | nil => intro _ _ x; exact SameContent.refl _
  | cons b rest ih =>
    intro hwf hcomm x
    rw [List.foldl_cons, List.foldl_cons]
    have hrest : ∀ dir ∈ rest, ∀ doc ∈ overrideDocs w dir, GoMap.WF doc :=
      fun dir hd => hwf dir (List.mem_cons_of_mem _ hd)
    exact (sameContent_foldl_mergeOverrides w rest hrest _ _
        (hcomm b (List.mem_cons_self _ _) x)).trans
      (ih hrest (fun c hc => hcomm c (List.mem_cons_of_mem _ hc)) (mergeOverrides w x b))

/-- Two depth-sorted orders of the same directories give the same Go map when
the directories of equal depth commute. -/
theorem foldl_mergeOverrides_sorted_perm_commute (w : World) : ∀ (l1 l2 : List String),
    l1.Perm l2 → l1.Nodup →
    l1.Sorted (fun a b => countSeparators a ≤ countSeparators b) →
    l2.Sorted (fun a b => countSeparators a ≤ countSeparators b) →
    (∀ dir ∈ l1, ∀ doc ∈ overrideDocs w dir, GoMap.WF doc) →
    (∀ a ∈ l1, ∀ b ∈ l1, a ≠ b → countSeparators a = countSeparators b → Commute w a b) →
    ∀ x : GoMap,
      SameContent (l1.foldl (mergeOverrides w) x) (l2.foldl (mergeOverrides w) x) := by
  intro l1
  induction l1 with
  | nil =>
    intro l2 hperm _ _ _ _ _ x
    rw [hperm.nil_eq]
    exact SameContent.refl _
  | cons a t1 ih =>
    intro l2 hperm hnd hs1 hs2 hwf hcomm x
    have ha2 : a ∈ l2 := hperm.subset (List.mem_cons_self _ _)
    obtain ⟨pre, post, hl2⟩ := List.append_of_mem ha2
    subst hl2
    have hperm2 : t1.Perm (pre ++ post) :=
      (List.perm_cons a).1 (hperm.trans List.perm_middle)
    have hnd1 := List.nodup_cons.1 hnd
    have hsorted1 := List.sorted_cons.1 hs1
    have hpre : ∀ b ∈ pre, b ∈ t1 ∧ a ≠ b ∧ countSeparators a = countSeparators b := by
      intro b hb
      have hbt : b ∈ t1 := hperm2.symm.subset (List.mem_append_left _ hb)
      have hle1 := hsorted1.1 b hbt
      have hle2 : countSeparators b ≤ countSeparators a := by
        have := List.pairwise_append.1 hs2
        exact this.2.2 b hb a (List.mem_cons_self _ _)
      exact ⟨hbt, fun hc => hnd1.1 (hc ▸ hbt), le_antisymm hle1 hle2⟩
    have hpost : ∀ dir ∈ post, ∀ doc ∈ overrideDocs w dir, GoMap.WF doc :=
      fun dir hd => hwf dir (List.mem_cons_of_mem _
        (hperm2.symm.subset (List.mem_append_right _ hd)))
    have hsub : (pre ++ post).Sorted (fun a b => countSeparators a ≤ countSeparators b) :=
      List.Pairwise.sublist
        (List.Sublist.append (List.Sublist.refl pre) (List.sublist_cons_self a post)) hs2
    have hih := ih (pre ++ post) hperm2 hnd1.2 hsorted1.2 hsub
      (fun dir hd => hwf dir (List.mem_cons_of_mem _ hd))
      (fun c hc e he => hcomm c (List.mem_cons_of_mem _ hc) e (List.mem_cons_of_mem _ he))
      (mergeOverrides w x a)
    have hmove := foldl_mergeOverrides_move_commute w a pre
      (fun dir hd => hwf dir (List.mem_cons_of_mem _ (hpre dir hd).1))
      (fun b hb => hcomm a (List.mem_cons_self _ _) b (List.mem_cons_of_mem _ (hpre b hb).1)
        (hpre b hb).2.1 (hpre b hb).2.2) x
    rw [List.foldl_cons, List.foldl_append, List.foldl_cons]
    refine hih.trans ?_
    rw [List.foldl_append]
    exact sameContent_foldl_mergeOverrides w post hpost _ _ hmove

/-- Two directories whose override documents share no top-level key commute;
so does a directory without an override file with every directory. -/
theorem commute_of_disjoint_keys (w : World) (a b : String)
    (hdisj : ∀ k ∈ overrideKeys w a, k ∉ overrideKeys w b) : Commute w a b :=
  fun x => (mergeOverrides_comm w a b hdisj x).sameContent

/-- C10, as the code has it: when the override documents of every two
directories of equal depth among those loaded commute under merge (loading one
and then the other gives the same context as the reverse order), the context
produced by `loadSubstFiles` does not depend on the order in which the keys of
`pathsToLoad` are enumerated before the depth sort, nor on how the sort leaves
directories of equal depth: every depth-sorted order of the same directories
yields the same final context, two contexts being the same when they are the
same Go map (the same value at every key path, whatever the order of entries).
The override documents are Go maps, with unique keys at every level. -/
theorem loadSubstFiles_enumeration_independent (w : World) (s : Subst)
    (hrange : ∀ keys : List String, keys.Nodup → (w.rangeKeys keys).Perm keys)
    (hwf : ∀ paths,
      loadOrder w s.Kustomization.Root s.Kustomization.GetResourcePaths = some paths →
      ∀ dir ∈ paths, ∀ doc ∈ overrideDocs w dir, GoMap.WF doc)
    (hcomm : ∀ paths,
      loadOrder w s.Kustomization.Root s.Kustomization.GetResourcePaths = some paths →
      ∀ a ∈ paths, ∀ b ∈ paths, a ≠ b → countSeparators a = countSeparators b →
        Commute w a b) :
    ∃ paths : List String,
      loadOrder w s.Kustomization.Root s.Kustomization.GetResourcePaths = some paths ∧
      loadSubstFiles w s = some (loadSubstPaths w s paths, none) ∧
      (∀ other : List String, other.Perm paths →
        other.Sorted (fun a b => countSeparators a ≤ countSeparators b) →
        SameContent (loadSubstPaths w s paths).Substitutions
          (loadSubstPaths w s other).Substitutions) ∧
      (∀ rangeKeys2 : List String → List String,
        (∀ keys : List String, keys.Nodup → (rangeKeys2 keys).Perm keys) →
        ∃ s2 : Subst,
          loadSubstFiles { w with rangeKeys := rangeKeys2 } s = some (s2, none) ∧
          SameContent (loadSubstPaths w s paths).Substitutions s2.Substitutions) := by
  obtain ⟨chain, hc1, ho1, hnd1, -⟩ :=
    loadOrder_collect w s.Kustomization.Root s.Kustomization.GetResourcePaths
  have hperm1 := (sortSlice_perm (w.rangeKeys (addResourcePaths w (chain.foldl setAdd [])
    s.Kustomization.GetResourcePaths))).trans (hrange _ hnd1)
  have hnodup := hperm1.nodup_iff.2 hnd1
  have hany : ∀ other : List String,
      other.Perm (sortSlice depthLess (w.rangeKeys (addResourcePaths w
        (chain.foldl setAdd []) s.Kustomization.GetResourcePaths))) →
      other.Sorted (fun a b => countSeparators a ≤ countSeparators b) →
      SameContent
        ((sortSlice depthLess (w.rangeKeys (addResourcePaths w (chain.foldl setAdd [])
          s.Kustomization.GetResourcePaths))).foldl (mergeOverrides w) s.Substitutions)
        (other.foldl (mergeOverrides w) s.Substitutions) :=
    fun other hp hs =>
      foldl_mergeOverrides_sorted_perm_commute w _ other hp.symm hnodup (sortSlice_sorted _) hs
        (hwf _ ho1) (hcomm _ ho1) s.Substitutions
  refine ⟨_, ho1, ?_, ?_, ?_⟩
  · unfold loadSubstFiles; rw [ho1]
  · intro other hp hs
    rw [loadSubstPaths_eq_foldl, loadSubstPaths_eq_foldl]
    exact hany other hp hs
  · intro rangeKeys2 h2
    obtain ⟨chain2, hc2, ho2, -, -⟩ :=
      loadOrder_collect { w with rangeKeys := rangeKeys2 } s.Kustomization.Root
        s.Kustomization.GetResourcePaths
    have hchain : chain2 = chain := Option.some.inj (hc2.symm.trans hc1)
    subst hchain
    have ho3 : loadOrder { w with rangeKeys := rangeKeys2 } s.Kustomization.Root
        s.Kustomization.GetResourcePaths = some (sortSlice depthLess (rangeKeys2
          (addResourcePaths w (chain2.foldl setAdd []) s.Kustomization.GetResourcePaths))) := ho2
    have hperm2 := (sortSlice_perm (rangeKeys2 (addResourcePaths w (chain2.foldl setAdd [])
      s.Kustomization.GetResourcePaths))).trans (h2 _ hnd1)
    refine ⟨loadSubstPaths { w with rangeKeys := rangeKeys2 } s (sortSlice depthLess
      (rangeKeys2 (addResourcePaths w (chain2.foldl setAdd [])
        s.Kustomization.GetResourcePaths))), ?_, ?_⟩
    · unfold loadSubstFiles; rw [ho3]
    · rw [loadSubstPaths_eq_foldl, loadSubstPaths_eq_foldl, mergeOverrides_rangeKeys]
      exact hany _ (hperm2.trans hperm1.symm) (sortSlice_sorted _)

/-- Witness for C10: the example tree with the resources `web`, `api` and
`shared`.  The directories `/env/prod/web` and `/env/prod/api` have equal
depth and both hold an override file that sets the key `config`, to mappings
with different keys; their documents commute.  Enumerating the collected paths
in insertion order and in reverse loads the two in opposite orders, and the
final contexts differ in the order of the entries under `config` only. -/
theorem loadSubstFiles_enumeration_independent_witness :
    (loadSubstFiles exampleWorld
      (exampleSubst "/env/prod" ["/env/prod/web", "/env/prod/api", "/env/shared"] [])).map
        (fun r => r.1.Substitutions)
      = some [("env", .ofStr "prod"), ("replicas", .ofInt 3),
          ("config", .map [("port", .ofInt 80), ("host", .ofStr "api")])] ∧
    (loadSubstFiles exampleWorldReversed
      (exampleSubst "/env/prod" ["/env/prod/web", "/env/prod/api", "/env/shared"] [])).map
        (fun r => r.1.Substitutions)
      = some [("env", .ofStr "prod"), ("replicas", .ofInt 3),
          ("config", .map [("host", .ofStr "api"), ("port", .ofInt 80)])] ∧
    ∃ paths : List String,
      loadOrder exampleWorld "/env/prod" ["/env/prod/web", "/env/prod/api", "/env/shared"]
        = some paths ∧
      loadSubstFiles exampleWorld
        (exampleSubst "/env/prod" ["/env/prod/web", "/env/prod/api", "/env/shared"] [])
        = some (loadSubstPaths exampleWorld
          (exampleSubst "/env/prod" ["/env/prod/web", "/env/prod/api", "/env/shared"] [])
          paths, none) ∧
      (∀ other : List String, other.Perm paths →
        other.Sorted (fun a b => countSeparators a ≤ countSeparators b) →
        SameContent (loadSubstPaths exampleWorld
          (exampleSubst "/env/prod" ["/env/prod/web", "/env/prod/api", "/env/shared"] [])
          paths).Substitutions
          (loadSubstPaths exampleWorld
            (exampleSubst "/env/prod" ["/env/prod/web", "/env/prod/api", "/env/shared"] [])
            other).Substitutions) ∧
      (∀ rangeKeys2 : List String → List String,
        (∀ keys : List String, keys.Nodup → (rangeKeys2 keys).Perm keys) →
        ∃ s2 : Subst,
          loadSubstFiles { exampleWorld with rangeKeys := rangeKeys2 }
            (exampleSubst "/env/prod" ["/env/prod/web", "/env/prod/api", "/env/shared"] [])
            = some (s2, none) ∧
          SameContent (loadSubstPaths exampleWorld
            (exampleSubst "/env/prod" ["/env/prod/web", "/env/prod/api", "/env/shared"] [])
            paths).Substitutions s2.Substitutions) := by
  have hl : loadOrder exampleWorld "/env/prod"
      ["/env/prod/web", "/env/prod/api", "/env/shared"]
      = some ["/env", "/env/prod", "/env/shared", "/env/prod/web", "/env/prod/api"] := by
    decide
  refine ⟨by decide, by decide,
    loadSubstFiles_enumeration_independent exampleWorld
      (exampleSubst "/env/prod" ["/env/prod/web", "/env/prod/api", "/env/shared"] [])
      (fun keys _ => List.Perm.refl keys) ?_ ?_⟩
  · intro paths h
    have hp : paths = ["/env", "/env/prod", "/env/shared", "/env/prod/web", "/env/prod/api"] :=
      Option.some.inj (h.symm.trans hl)
    subst hp
    decide
  · intro paths h
    have hp : paths = ["/env", "/env/prod", "/env/shared", "/env/prod/web", "/env/prod/api"] :=
      Option.some.inj (h.symm.trans hl)
    subst hp
    intro a ha b hb hne hd
    simp only [List.mem_cons, List.mem_singleton, List.not_mem_nil, or_false] at ha hb
    rcases ha with rfl | rfl | rfl | rfl | rfl <;>
    rcases hb with rfl | rfl | rfl | rfl | rfl <;>
    first
      | exact absurd rfl hne
      | exact absurd hd (by decide)
      | exact commute_of_disjoint_keys exampleWorld _ _ (by decide)
      | exact commute_of_compatible exampleWorld
          (by decide : overrideDocs exampleWorld "/env/prod/web"
            = [[("config", .map [("port", .ofInt 80)])]])
          (by decide : overrideDocs exampleWorld "/env/prod/api"
            = [[("config", .map [("host", .ofStr "api")])]])
          (by decide) (by decide) (by decide)
      | exact commute_of_compatible exampleWorld
          (by decide : overrideDocs exampleWorld "/env/prod/api"
            = [[("config", .map [("host", .ofStr "api")])]])
          (by decide : overrideDocs exampleWorld "/env/prod/web"
            = [[("config", .map [("port", .ofInt 80)])]])
          (by decide) (by decide) (by decide)

end SubstSpec
